import Mathlib

/-!
Shallow embedding of the grouped-table engine of `aclements/go-gg`
(packages `table` and `generic`), together with proofs about its
specification.

Modelling conventions:
* A Go slice of column values is a `List V` for a type parameter `V`
  (Go columns may have per-column element types; `V` stands for the
  common value universe, e.g. a sum type, and only decidable equality
  of elements is assumed except where `SortBy` needs an order).
* A Go `map` plus its companion order slice (`cols`/`colNames` in
  `Table`, `tables`/`groups` in `groupedTable`) is one association
  list.  Go's `for k := range m` has unspecified (actively randomized)
  iteration order, and `Table.Add` (table.go:138-143) and
  `groupedTable.AddTable` (table.go:245-250) rebuild their order
  slices by ranging a map, so the rebuilt order is not a program
  guarantee.  The functions `Table.Add` and `gAddTable` below fix one
  admissible schedule (the kept entries in their previous order); the
  relations `TableAddR` and `gAddTableR` quantify over every
  admissible schedule.  Statements that depend on a rebuilt order are
  settled against the relations, or carry hypotheses under which every
  ranged map has at most one entry, where all schedules agree;
  the remaining statements are order-insensitive (error behaviour,
  column/row contents, column-name sets).
* A Go `panic` is `Except.error` with an explicit error value; the
  distinct panic messages of the source become distinct constructors.
* `GroupID` values are compared structurally here.  In Go a `GroupID`
  wraps a pointer, so `Extend` always produces a fresh identity; all
  statements below only ever compare ids built from distinct
  (parent, label) data, where the two semantics agree.
-/

set_option linter.unusedSectionVars false
set_option linter.unusedVariables false
set_option maxHeartbeats 1000000

namespace GoGG

/-- Panic values of the modelled code, one constructor per distinct
panic site / error condition. -/
inductive TabError where
  | lengthMismatch (name : String) (got want : Nat)
  | unknownColumn (name : String)
  | missingColumn (name : String)
  | extraColumn (name : String)
  | indexOutOfRange
  | emptySequence
  | nilColumn (name : String)
  deriving DecidableEq

variable {V : Type} [DecidableEq V] [Inhabited V]

/-! ## package generic -/

/-- Embeds `generic.MultiIndex` (generic/index.go): `w[i] = v[indexes[i]]`.
The Go loop panics (index out of range) as soon as an index is outside
`v`; the partially built result is unobservable, so the check is hoisted. -/
def MultiIndex (v : List V) (indexes : List Nat) : Except TabError (List V) :=
  if indexes.all (fun x => x < v.length) then
    .ok (indexes.map (fun x => v.getD x default))
  else
    .error .indexOutOfRange

/-- Embeds the copy loop of `generic.Cycle` (generic/cycle.go):
`for pos := 0; pos < length; { pos += reflect.Copy(out.Slice(pos, length), rv) }`.
Each `reflect.Copy` writes `min(len(seq), remaining)` elements of `seq`. -/
def cycleFill (seq : List V) (r : Nat) : List V :=
  if seq.length = 0 then []
  else if r ≤ seq.length then seq.take r
  else seq ++ cycleFill seq (r - seq.length)
  termination_by r
  decreasing_by omega

/-- Embeds `generic.Cycle` (generic/cycle.go). -/
def Cycle (seq : List V) (length : Nat) : Except TabError (List V) :=
  if seq.length ≥ length then .ok (seq.take length)
  else if seq.length = 0 then .error .emptySequence
  else .ok (cycleFill seq length)

/-! ## Table (table.go) -/

/-- Embeds `table.Table`: `cols map[string]Slice` and `colNames []string`
are merged into one insertion-ordered association list. -/
structure Table (V : Type) where
  cols : List (String × List V)
  len : Nat
  deriving DecidableEq

/-- The zero value `new(Table)`: no rows and no columns. -/
def Table.empty : Table V := ⟨[], 0⟩

/-- Embeds `Table.Len`. -/
def Table.Len (t : Table V) : Nat := t.len

/-- Embeds `Table.Columns`. -/
def Table.Columns (t : Table V) : List String := t.cols.map Prod.fst

/-- Embeds `Table.Column` (`nil` for a missing column becomes `none`). -/
def Table.Column (t : Table V) (name : String) : Option (List V) :=
  (t.cols.find? (fun p => p.1 = name)).map Prod.snd

/-- Embeds `Table.MustColumn`; the `unknown column` panic becomes an error. -/
def Table.MustColumn (t : Table V) (name : String) : Except TabError (List V) :=
  match t.Column name with
  | some c => .ok c
  | none => .error (.unknownColumn name)

/-- Embeds `Table.Add` (table.go): remove any existing column named
`name`, then either adopt the new column's length (if nothing remains),
panic on a length mismatch, or append.  The Go code rebuilds the kept
columns by ranging over the map `t.cols` (table.go:138-143), whose
iteration order is unspecified; this function fixes one admissible
schedule, the kept columns in their previous order.  `TableAddR`
below is the schedule-quantified relation; only order-insensitive
facts, or facts with every ranged map at most a singleton, are proved
from this function. -/
def Table.Add (t : Table V) (name : String) (data : List V) :
    Except TabError (Table V) :=
  let dataLen := data.length
  let kept := t.cols.filter (fun p => ¬ (p.1 = name))
  if kept.isEmpty then .ok ⟨[(name, data)], dataLen⟩
  else if t.len ≠ dataLen then .error (.lengthMismatch name dataLen t.len)
  else .ok ⟨kept ++ [(name, data)], t.len⟩

/-! ## GroupID (map.go) -/

/-- Embeds `table.GroupID` / `groupNode`: a tree of labels rooted at
`RootGroupID` (the zero `GroupID`). -/
inductive GroupID where
  | root
  | extend (parent : GroupID) (label : String)
  deriving DecidableEq

/-- Embeds `RootGroupID`. -/
def RootGroupID : GroupID := .root

/-- Embeds `GroupID.Extend`. -/
def GroupID.Extend (g : GroupID) (label : String) : GroupID := .extend g label

/-- Embeds `GroupID.Parent`: the parent of the root is the root. -/
def GroupID.Parent : GroupID → GroupID
  | .root => .root
  | .extend p _ => p

/-! ## Grouping (table.go) -/

/-- Embeds the dynamic type of a `table.Grouping`: either a `*Table`
(zero or one root group) or a `*groupedTable` whose `tables` map and
`groups` slice are merged into one insertion-ordered association list,
plus its `colNames`. -/
inductive Grouping (V : Type) where
  | table (t : Table V)
  | grouped (tabs : List (GroupID × Table V)) (colNames : List String)
  deriving DecidableEq

/-- The group list together with each group's table.  For a `*Table`
this combines `Table.Groups` (`[]` if empty, else `[RootGroupID]`) and
`Table.Table`; for a `*groupedTable` it is its association list. -/
def Grouping.pairs : Grouping V → List (GroupID × Table V)
  | .table t => if t.cols = [] then [] else [(.root, t)]
  | .grouped tabs _ => tabs

/-- Embeds `Grouping.Tables` / `Groups`: the ordered group ids. -/
def Grouping.Tables (g : Grouping V) : List GroupID := g.pairs.map Prod.fst

/-- Embeds `Grouping.Table`: the table bound to `gid`, if any. -/
def Grouping.Table (g : Grouping V) (gid : GroupID) : Option (Table V) :=
  (g.pairs.find? (fun p => p.1 = gid)).map Prod.snd

/-- Embeds `Grouping.Columns`. -/
def Grouping.Columns : Grouping V → List String
  | .table t => t.Columns
  | .grouped _ colNames => colNames

/-- Embeds `groupedTable.AddTable` (table.go): drop an empty table,
remove any existing binding of `gid`, adopt the column set when no
groups remain, otherwise check `t`'s columns against `colNames`
(`table missing column` / `table has extra column` panics).  Returns
the new `tables`/`groups` association list and `colNames`.  The Go
code rebuilds the kept groups by ranging over the map `g.tables`
(table.go:245-250), whose iteration order is unspecified; this
function fixes one admissible schedule, the kept groups in their
previous order.  `gAddTableR` below is the schedule-quantified
relation; only order-insensitive facts, or facts with every ranged
map at most a singleton, are proved from this function. -/
def gAddTable (tabs : List (GroupID × Table V)) (colNames : List String)
    (gid : GroupID) (t : Table V) :
    Except TabError (List (GroupID × Table V) × List String) :=
  if t.cols = [] then .ok (tabs, colNames)
  else
    let kept := tabs.filter (fun p => ¬ (p.1 = gid))
    if kept.isEmpty then .ok ([(gid, t)], t.Columns)
    else
      match colNames.find? (fun c => (t.Column c).isNone) with
      | some c => .error (.missingColumn c)
      | none =>
        if t.cols.length ≠ colNames.length then
          match t.Columns.find? (fun c => ¬ (c ∈ colNames)) with
          | some c => .error (.extraColumn c)
          | none => .ok (kept ++ [(gid, t)], colNames)
        else .ok (kept ++ [(gid, t)], colNames)

/-- Faithful schedule-quantified embedding of `Table.Add`
(table.go:127-156): the kept columns are rebuilt by ranging over the
Go map `t.cols` (table.go:138-143), whose iteration order is
unspecified, so `kept` here is an arbitrary permutation of the other
columns.  `TableAddR t name data r` holds iff `r` is a possible
outcome of `t.Add(name, data)` under some iteration order. -/
def TableAddR (t : Table V) (name : String) (data : List V)
    (r : Except TabError (Table V)) : Prop :=
  ∃ kept : List (String × List V),
    kept.Perm (t.cols.filter (fun p => ¬ (p.1 = name))) ∧
    r = (if kept.isEmpty then .ok ⟨[(name, data)], data.length⟩
      else if t.len ≠ data.length then
        .error (.lengthMismatch name data.length t.len)
      else .ok ⟨kept ++ [(name, data)], t.len⟩)

/-- Faithful schedule-quantified embedding of `groupedTable.AddTable`
(table.go:234-280): the kept groups are rebuilt by ranging over the
Go map `g.tables` (table.go:245-250), so `kept` is an arbitrary
permutation of the other bindings; likewise the extra-column check
ranges the map `t.cols`, so any extra column may be the one reported
(and when none is extra despite the length mismatch the loop falls
through and the binding is appended, as in the code). -/
def gAddTableR (tabs : List (GroupID × Table V)) (colNames : List String)
    (gid : GroupID) (t : Table V)
    (r : Except TabError (List (GroupID × Table V) × List String)) : Prop :=
  if t.cols = [] then r = .ok (tabs, colNames)
  else
    ∃ kept : List (GroupID × Table V),
      kept.Perm (tabs.filter (fun p => ¬ (p.1 = gid))) ∧
      (if kept.isEmpty then r = .ok ([(gid, t)], t.Columns)
      else
        match colNames.find? (fun c => (t.Column c).isNone) with
        | some c => r = .error (.missingColumn c)
        | none =>
          if t.cols.length ≠ colNames.length then
            (∃ c, c ∈ t.Columns ∧ ¬ (c ∈ colNames) ∧
              r = .error (.extraColumn c)) ∨
            ((∀ c ∈ t.Columns, c ∈ colNames) ∧
              r = .ok (kept ++ [(gid, t)], colNames))
          else r = .ok (kept ++ [(gid, t)], colNames))

/-- Embeds `Grouping.AddTable`: `Table.AddTable` dispatches on whether
either table is empty or `gid` is the root, and otherwise builds a
fresh `groupedTable` and adds `t` then `t2` to it (table.go:207-220);
`groupedTable.AddTable` is `gAddTable`. -/
def Grouping.AddTable (g : Grouping V) (gid : GroupID) (t2 : GoGG.Table V) :
    Except TabError (Grouping V) :=
  match g with
  | .grouped tabs colNames =>
    (gAddTable tabs colNames gid t2).map (fun p => .grouped p.1 p.2)
  | .table t =>
    if t2.cols = [] then .ok (.table t)
    else if gid = .root ∨ t.cols = [] then .ok (.table t2)
    else
      (gAddTable [] [] .root t).bind (fun p =>
        (gAddTable p.1 p.2 gid t2).map (fun q => .grouped q.1 q.2))

/-! ## map.go: GroupBy, Ungroup, Flatten, concatRows -/

/-- Looks up a column for `concatRows`; `tab.Column(col)` yielding `nil`
would make `reflect.Append` panic, modelled as an error. -/
def getColE (t : Table V) (name : String) : Except TabError (List V) :=
  match t.Column name with
  | some c => .ok c
  | none => .error (.nilColumn name)

/-- Embeds `concatRows` (map.go): row-wise concatenation, iterating the
first table's columns and appending every table's column of that name. -/
def concatRows (tabs : List (Table V)) : Except TabError (Table V) :=
  match tabs with
  | [] => .ok Table.empty
  | [t] => .ok t
  | t0 :: _ =>
    t0.Columns.foldlM (fun (out : Table V) name => do
        let seqs ← tabs.mapM (fun tab => getColE tab name)
        out.Add name seqs.flatten)
      Table.empty

/-- One step of the index-building loop of `GroupBy` (map.go:100-115):
`gidkey`, `subgroups` and `rowsMap` are merged into a first-seen-ordered
association list from column value to that value's row indexes. -/
def groupIndexAdd (acc : List (V × List Nat)) (x : V) (i : Nat) :
    List (V × List Nat) :=
  if acc.any (fun p => p.1 = x) then
    acc.map (fun p => if p.1 = x then (p.1, p.2 ++ [i]) else p)
  else acc ++ [(x, [i])]

/-- The index on column values built by `GroupBy`'s scan of a group's
rows in order (map.go:100-115). -/
def groupIndex (xs : List V) : List (V × List Nat) :=
  xs.enum.foldl (fun acc p => groupIndexAdd acc p.2 p.1) []

/-- Embeds the subgroup-construction loop of `GroupBy` (map.go:118-126)
(also the column loop of `SortBy` and `FilterEq`): every column of `t`
is projected through `rows` via `MultiIndex` and added to a new table. -/
def projectTable (t : Table V) (rows : List Nat) : Except TabError (Table V) :=
  t.cols.foldlM (fun (subgroup : Table V) p => do
      let seq ← MultiIndex p.2 rows
      subgroup.Add p.1 seq)
    Table.empty

/-- The per-group body of `GroupBy` for the first requested column
(map.go:96-129): index the group's rows by the column's values, then
emit one child group per distinct value, labelled by its ordinal. -/
def groupByCol (g : Grouping V) (col : String) : Except TabError (Grouping V) :=
  g.pairs.foldlM (fun out p => do
      let c ← p.2.MustColumn col
      (groupIndex c).enum.foldlM (fun out2 q => do
          let subgroup ← projectTable p.2 q.2.2
          out2.AddTable (p.1.Extend (toString q.1)) subgroup)
        out)
    (.table Table.empty)

/-- Embeds `GroupBy` (map.go:87-132): peel the first column, sub-divide
every group by it, and recurse on the remaining columns. -/
def GroupBy (g : Grouping V) (cols : List String) : Except TabError (Grouping V) :=
  match cols with
  | [] => .ok g
  | col :: rest => (groupByCol g col).bind (fun out => GroupBy out rest)

/-- Embeds `Ungroup` (map.go:137-160): concatenate maximal runs of
adjacent groups sharing a parent, binding each run to the parent. -/
def Ungroup (g : Grouping V) : Except TabError (Grouping V) :=
  match g.pairs with
  | [] => .ok g
  | (gid0, _) :: rest =>
    if rest = [] ∧ gid0 = .root then .ok g
    else do
      let st ← g.pairs.foldlM
        (fun (st : Grouping V × GroupID × List (Table V)) p => do
          if p.1.Parent ≠ st.2.1 then do
            let run ← concatRows st.2.2
            let out ← st.1.AddTable st.2.1 run
            pure (out, p.1.Parent, [p.2])
          else
            pure (st.1, st.2.1, st.2.2 ++ [p.2]))
        ((.table Table.empty : Grouping V), gid0.Parent, ([] : List (Table V)))
      let run ← concatRows st.2.2
      st.1.AddTable st.2.1 run

/-- Embeds `Flatten` (map.go:164-180): concatenate all groups into one
table (zero groups give the empty table, one group gives its table). -/
def Flatten (g : Grouping V) : Except TabError (Table V) :=
  match g.pairs with
  | [] => .ok Table.empty
  | [p] => .ok p.2
  | ps => concatRows (ps.map Prod.snd)

/-! ## sort.go: SortBy -/

/-- Embeds `sort.IsSorted(generic.Sorter(seq))`: no element is less
than its predecessor. -/
def isSortedSeq [LinearOrder V] : List V → Bool
  | [] => true
  | [_] => true
  | a :: b :: r => decide (¬ b < a) && isSortedSeq (b :: r)

/-- Modelled from the spec: `generic.Sorter` (absent from the sources;
§4.1 makes it the natural-order sort key of a column) combined with the
Go standard library's `sort.Stable` on `permSort` (sort.go:36-42): the
stable sort of the identity permutation `[0..n)` keyed by `seq`. -/
def sortPerm [LinearOrder V] (seq : List V) (n : Nat) : List Nat :=
  (List.range n).mergeSort
    (fun i j => decide (¬ seq.getD j default < seq.getD i default))

/-- Embeds `SortBy` (sort.go:18-55): per group, short-circuit if the
column is already sorted, else permute every column by the stable sort
permutation. -/
def SortBy [LinearOrder V] (g : Grouping V) (col : String) :
    Except TabError (Grouping V) :=
  g.pairs.foldlM (fun out p => do
      let seq ← p.2.MustColumn col
      if isSortedSeq seq then out.AddTable p.1 p.2
      else do
        let nt ← projectTable p.2 (sortPerm seq p.2.Len)
        out.AddTable p.1 nt)
    (.table Table.empty)

/-! ## MapTables and FilterEq -/

/-- Modelled from the spec: the finalize step of the `GroupingBuilder`
accumulator, which is absent from the sources; §4.4 specifies a new
Grouping with the same GroupID set as the input, order preserved, all
tables sharing one column set (the `add_table` contract, §4.4/§4.5). -/
def groupingBuilderDone (ps : List (GroupID × Table V)) :
    Except TabError (Grouping V) :=
  match ps with
  | [] => .ok (.table Table.empty)
  | (gid0, t0) :: rest =>
    match rest.findSome? (fun p =>
        (t0.Columns.find? (fun c => ¬ (c ∈ p.2.Columns))).or
          (p.2.Columns.find? (fun c => ¬ (c ∈ t0.Columns)))) with
    | some c => .error (.missingColumn c)
    | none => .ok (.grouped ((gid0, t0) :: rest) t0.Columns)

/-- Modelled from the spec: `MapTables` applies `f` per group and
assembles the results through the `GroupingBuilder` (absent from the
sources), keeping the GroupID order of the input. -/
def MapTables (f : GroupID → Table V → Except TabError (Table V))
    (g : Grouping V) : Except TabError (Grouping V) := do
  let ps ← g.pairs.mapM (fun p => do
      let t ← f p.1 p.2
      pure (p.1, t))
  groupingBuilderDone ps

/-- The per-table body of `FilterEq` (table.go): gather the indexes of
rows whose `col` value equals `val`, then project every column. -/
def filterTable (t : Table V) (col : String) (val : V) :
    Except TabError (Table V) := do
  let seq ← t.MustColumn col
  let idx := (List.range seq.length).filter (fun i => seq.getD i default = val)
  projectTable t idx

/-- Embeds `FilterEq` (table.go): keep only rows whose `col` equals
`val`, per group, via `MapTables`. -/
def FilterEq (g : Grouping V) (col : String) (val : V) :
    Except TabError (Grouping V) :=
  MapTables (fun _ t => filterTable t col val) g

/-! ## Well-formedness and specification predicates -/

/-- Two column-name lists name the same set of columns. -/
def SameColSet (l1 l2 : List String) : Prop :=
  (∀ s ∈ l1, s ∈ l2) ∧ (∀ s ∈ l2, s ∈ l1)

/-- Well-formedness of a `Table`, as maintained by the Go code: column
names are distinct (they key a map) and every column has `len` rows;
the zero-column table has zero rows. -/
def WFT (t : Table V) : Prop :=
  t.Columns.Nodup ∧ (∀ p ∈ t.cols, p.2.length = t.len) ∧ (t.cols = [] → t.len = 0)

/-- Well-formedness of a `Grouping`: group ids are distinct (they key a
map), and every bound table is well-formed, non-empty, and has the
`colNames` column set. -/
def WFG : Grouping V → Prop
  | .table t => WFT t
  | .grouped tabs colNames =>
    (tabs.map Prod.fst).Nodup ∧ colNames.Nodup ∧
      ∀ p ∈ tabs, WFT p.2 ∧ p.2.cols ≠ [] ∧ SameColSet p.2.Columns colNames

/-- The column-set invariant of the spec: every bound table's column
set is the set `Columns()` reports. -/
def ColsOk (g : Grouping V) : Prop :=
  ∀ p ∈ g.pairs, SameColSet p.2.Columns g.Columns

/-- A chain of `AddTable` calls, the way every operation of map.go and
sort.go accumulates `out`. -/
def addAllE (init : Grouping V) (ps : List (GroupID × Table V)) :
    Except TabError (Grouping V) :=
  ps.foldlM (fun out p => out.AddTable p.1 p.2) init

/-- The grouping an `AddTable` chain from the empty table reaches, for
distinct group ids of which only the first two positions may be the
root: `Table.AddTable` discards the first binding's id (re-rooting it),
and a root binding in second position silently replaces the first. -/
def buildShape : List (GroupID × Table V) → Grouping V
  | [] => .table Table.empty
  | [p] => .table p.2
  | p1 :: p2 :: rest =>
    if p2.1 = .root then buildShape (p2 :: rest)
    else .grouped ((.root, p1.2) :: p2 :: rest) p1.2.Columns

/-- The group index `GroupBy` builds from a list of equal-value blocks:
class `j` holds the consecutive row indexes of block `j`. -/
def groupIndexOfBlocks (i0 : Nat) : List (V × Nat) → List (V × List Nat)
  | [] => []
  | b :: bs => (b.1, List.range' i0 b.2) :: groupIndexOfBlocks (i0 + b.2) bs

/-- A column in which rows with equal values are contiguous: it is a
concatenation of constant blocks with pairwise distinct values. -/
def ContigBlocks (xs : List V) : Prop :=
  ∃ bs : List (V × Nat), (bs.map Prod.fst).Nodup ∧ (∀ b ∈ bs, 0 < b.2) ∧
    xs = (bs.map (fun b => List.replicate b.2 b.1)).flatten

/-- The table `projectTable t rows` evaluates to: every column gathered
through `rows`, with `rows.length` rows. -/
def projT (t : Table V) (rows : List Nat) : Table V :=
  ⟨t.cols.map (fun p => (p.1, rows.map (fun i => p.2.getD i default))),
    rows.length⟩

/-- The table `SortBy` binds for one group: the group's own table when
the sort key is already sorted, else every column permuted by the
stable sort permutation. -/
def sortedTable [LinearOrder V] (col : String) (t : Table V) :
    Except TabError (Table V) := do
  let seq ← t.MustColumn col
  if isSortedSeq seq then pure t
  else projectTable t (sortPerm seq t.Len)

/-- The table `SortBy` binds for one group, as a total function: the
group's own table when the sort key is already sorted, else every
column permuted by the stable sort permutation. -/
def sortT [LinearOrder V] (col : String) (t : Table V) : Table V :=
  if isSortedSeq ((t.Column col).getD []) then t
  else projT t (sortPerm ((t.Column col).getD []) t.Len)

/-- The most-significant-first decimal digits of a natural number
(used to reason about `strconv.Itoa`, i.e. `Nat.repr`). -/
def decDigits (n : Nat) : List Nat :=
  if _h : n < 10 then [n] else decDigits (n / 10) ++ [n % 10]
  decreasing_by exact Nat.div_lt_self (by omega) (by omega)

/-- The value of a most-significant-first digit list. -/
def decValue (ds : List Nat) : Nat := ds.foldl (fun acc d => acc * 10 + d) 0

/-- The numeric value of a decimal digit character. -/
def charVal (c : Char) : Nat := c.toNat - 48

/-! ## Basic lemmas -/

theorem decValue_append_singleton (l : List Nat) (d : Nat) :
    decValue (l ++ [d]) = decValue l * 10 + d := by
  rw [decValue, decValue, List.foldl_append]
  rfl

theorem decDigits_of_lt (n : Nat) (h : n < 10) : decDigits n = [n] := by
  unfold decDigits
  rw [dif_pos h]

theorem decDigits_of_ge (n : Nat) (h : ¬ n < 10) :
    decDigits n = decDigits (n / 10) ++ [n % 10] := by
  conv_lhs => unfold decDigits
  rw [dif_neg h]

theorem decValue_decDigits (n : Nat) : decValue (decDigits n) = n := by
  induction n using Nat.strong_induction_on with
  | _ n ih =>
    by_cases h : n < 10
    · rw [decDigits_of_lt n h]
      simp [decValue]
    · rw [decDigits_of_ge n h, decValue_append_singleton,
        ih (n / 10) (Nat.div_lt_self (by omega) (by omega))]
      omega

theorem decDigits_lt_ten (n : Nat) : ∀ d ∈ decDigits n, d < 10 := by
  induction n using Nat.strong_induction_on with
  | _ n ih =>
    by_cases h : n < 10
    · rw [decDigits_of_lt n h]
      simpa using h
    · rw [decDigits_of_ge n h]
      intro d hd
      rcases List.mem_append.mp hd with h2 | h2
      · exact ih (n / 10) (Nat.div_lt_self (by omega) (by omega)) d h2
      · simp at h2
        omega

theorem charVal_digitChar (d : Nat) (h : d < 10) :
    charVal (Nat.digitChar d) = d := by
  interval_cases d <;> rfl

theorem map_digitChar_inj (l1 l2 : List Nat) (h1 : ∀ d ∈ l1, d < 10)
    (h2 : ∀ d ∈ l2, d < 10)
    (h : l1.map Nat.digitChar = l2.map Nat.digitChar) : l1 = l2 := by
  have key : ∀ l : List Nat, (∀ d ∈ l, d < 10) →
      (l.map Nat.digitChar).map charVal = l := by
    intro l hl
    calc (l.map Nat.digitChar).map charVal
        = l.map (fun d => charVal (Nat.digitChar d)) := by
          rw [List.map_map]
          rfl
      _ = l.map id := List.map_congr_left (fun d hd => charVal_digitChar d (hl d hd))
      _ = l := List.map_id _
  rw [← key l1 h1, ← key l2 h2, h]

theorem toDigitsCore_decDigits :
    ∀ (f n : Nat) (ds : List Char), n < 10 ^ (f + 1) →
      Nat.toDigitsCore 10 (f + 1) n ds =
        (decDigits n).map Nat.digitChar ++ ds := by
  intro f
  induction f with
  | zero =>
    intro n ds h
    have h10 : n < 10 := by simpa using h
    have hdiv : n / 10 = 0 := Nat.div_eq_of_lt h10
    rw [Nat.toDigitsCore, if_pos hdiv, decDigits_of_lt n h10]
    have : n % 10 = n := Nat.mod_eq_of_lt h10
    simp [this]
  | succ f ih =>
    intro n ds h
    rw [Nat.toDigitsCore]
    by_cases hdiv : n / 10 = 0
    · have h10 : n < 10 := by omega
      rw [if_pos hdiv, decDigits_of_lt n h10]
      have : n % 10 = n := Nat.mod_eq_of_lt h10
      simp [this]
    · rw [if_neg hdiv]
      have hlt : n / 10 < 10 ^ (f + 1) := by
        have h2 : n < 10 ^ (f + 1) * 10 := by
          rw [← pow_succ]
          exact h
        omega
      rw [ih (n / 10) _ hlt, decDigits_of_ge n (by omega)]
      simp

theorem repr_eq_decDigits (n : Nat) :
    Nat.repr n = ((decDigits n).map Nat.digitChar).asString := by
  have hn : n < 10 ^ (n + 1) := by
    calc n < 10 ^ n := @Nat.lt_pow_self 10 (by omega) n
    _ ≤ 10 ^ (n + 1) := Nat.pow_le_pow_right (by omega) (by omega)
  rw [Nat.repr, Nat.toDigits, toDigitsCore_decDigits n n [] hn, List.append_nil]

theorem natRepr_injective : Function.Injective Nat.repr := by
  intro m n h
  rw [repr_eq_decDigits, repr_eq_decDigits] at h
  have hdata : (decDigits m).map Nat.digitChar = (decDigits n).map Nat.digitChar := by
    have := congrArg String.data h
    simpa [List.asString] using this
  have := map_digitChar_inj _ _ (decDigits_lt_ten m) (decDigits_lt_ten n) hdata
  rw [← decValue_decDigits m, ← decValue_decDigits n, this]

theorem natToString_injective (m n : Nat) (h : toString m = toString n) :
    m = n := natRepr_injective h

theorem cycleFill_length (seq : List V) :
    ∀ r : Nat, seq.length ≠ 0 → (cycleFill seq r).length = r := by
  intro r
  induction r using Nat.strong_induction_on with
  | _ r ih =>
    intro h
    unfold cycleFill
    by_cases h2 : r ≤ seq.length
    · simp [h, h2]
    · simp only [h, if_false, h2, List.length_append]
      rw [ih (r - seq.length) (by omega) h]
      omega

theorem cycleFill_getElem (seq : List V) :
    ∀ r i : Nat, seq.length ≠ 0 → i < r →
      (cycleFill seq r)[i]? = seq[i % seq.length]? := by
  intro r
  induction r using Nat.strong_induction_on with
  | _ r ih =>
    intro i h hir
    unfold cycleFill
    by_cases h2 : r ≤ seq.length
    · simp only [h, if_false, h2, if_true, List.getElem?_take]
      rw [if_pos hir, Nat.mod_eq_of_lt (by omega)]
    · simp only [h, if_false, h2]
      by_cases h3 : i < seq.length
      · rw [List.getElem?_append_left h3, Nat.mod_eq_of_lt h3]
      · rw [List.getElem?_append_right (by omega),
          ih (r - seq.length) (by omega) (i - seq.length) h (by omega),
          Nat.mod_eq_sub_mod (show i ≥ seq.length by omega)]

/-! ## Claim C8: Cycle -/

/-- C8: `Cycle(s, n)` takes the first `n` elements when `n ≤ len(s)`;
when `n > len(s) > 0` it returns exactly `n` elements with
`w[i] = s[i mod len(s)]`; and it fails with the empty-sequence panic
exactly when `len(s) = 0` and `n ≠ 0`. -/
theorem cycle_spec (s : List V) (n : Nat) :
    (n ≤ s.length → Cycle s n = .ok (s.take n)) ∧
    (s.length < n → 0 < s.length →
      ∃ w, Cycle s n = .ok w ∧ w.length = n ∧
        ∀ i < n, w[i]? = s[i % s.length]?) ∧
    (Cycle s n = .error .emptySequence ↔ s.length = 0 ∧ n ≠ 0) := by
  refine ⟨fun h => ?_, fun h h0 => ?_, ?_⟩
  · rw [Cycle, if_pos (by omega)]
  · rw [Cycle, if_neg (by omega), if_neg (by omega)]
    exact ⟨cycleFill s n, rfl, cycleFill_length s n (by omega),
      fun i hi => cycleFill_getElem s n i (by omega) hi⟩
  · constructor
    · intro h
      rw [Cycle] at h
      by_cases h1 : s.length ≥ n
      · rw [if_pos h1] at h; exact absurd h (by simp)
      · rw [if_neg h1] at h
        by_cases h2 : s.length = 0
        · exact ⟨h2, by omega⟩
        · rw [if_neg h2] at h; exact absurd h (by simp)
    · rintro ⟨h0, hn⟩
      rw [Cycle, if_neg (by omega), if_pos h0]

/-- C8 witness: `Cycle([1,2], 5) = [1,2,1,2,1]` and `Cycle([], 3)`
fails with the empty-sequence panic, instances of `cycle_spec`. -/
theorem cycle_spec_witness :
    Cycle ([1, 2] : List Nat) 5 = .ok [1, 2, 1, 2, 1] ∧
    Cycle ([] : List Nat) 3 = .error .emptySequence := by
  constructor
  · obtain ⟨w, hw, hlen, helem⟩ :=
      (cycle_spec ([1, 2] : List Nat) 5).2.1 (by decide) (by decide)
    rw [hw]
    have : w = [1, 2, 1, 2, 1] := by
      have h0 := helem 0 (by decide)
      have h1 := helem 1 (by decide)
      have h2 := helem 2 (by decide)
      have h3 := helem 3 (by decide)
      have h4 := helem 4 (by decide)
      simp only [List.length_cons, List.length_nil] at h0 h1 h2 h3 h4 hlen
      apply List.ext_getElem?
      intro i
      match i with
      | 0 => exact h0
      | 1 => exact h1
      | 2 => exact h2
      | 3 => exact h3
      | 4 => exact h4
      | (m + 5) =>
        rw [List.getElem?_eq_none (by omega), List.getElem?_eq_none (by simp)]
    rw [this]
  · exact (cycle_spec ([] : List Nat) 3).2.2.mpr ⟨rfl, by decide⟩

/-! ## Claim C9: MultiIndex -/

/-- C9: with all indexes in range, `MultiIndex(v, ix)` returns a
sequence `w` of length `len(ix)` with `w[i] = v[ix[i]]` (repeats and
arbitrary order allowed); an out-of-range index is a contract
violation. -/
theorem multiIndex_spec (v : List V) (ix : List Nat) :
    ((∀ i ∈ ix, i < v.length) →
      ∃ w, MultiIndex v ix = .ok w ∧ w.length = ix.length ∧
        ∀ j, j < ix.length → w[j]? = v[ix.getD j 0]?) ∧
    ((∃ i ∈ ix, v.length ≤ i) → MultiIndex v ix = .error .indexOutOfRange) := by
  constructor
  · intro h
    rw [MultiIndex, if_pos (by simpa using fun i hi => h i hi)]
    refine ⟨_, rfl, by simp, fun j hj => ?_⟩
    have hx : ix.getD j 0 = ix[j] := by
      rw [List.getD_eq_getElem?_getD, List.getElem?_eq_getElem hj]
      rfl
    have hmem : ix[j] ∈ ix := List.getElem_mem _
    rw [List.getElem?_map, List.getElem?_eq_getElem hj, hx,
      List.getElem?_eq_getElem (h _ hmem), Option.map_some']
    congr 1
    rw [List.getD_eq_getElem?_getD, List.getElem?_eq_getElem (h _ hmem)]
    rfl
  · rintro ⟨i, hi, hlen⟩
    rw [MultiIndex, if_neg]
    simp only [List.all_eq_true, decide_eq_true_eq, not_forall]
    exact ⟨i, hi, by omega⟩

/-- C9 witness: `MultiIndex([10,20,30], [2,0,0,1]) = [30,10,10,20]`,
an instance of `multiIndex_spec`. -/
theorem multiIndex_spec_witness :
    MultiIndex ([10, 20, 30] : List Nat) [2, 0, 0, 1] = .ok [30, 10, 10, 20] := by
  obtain ⟨w, hw, hlen, helem⟩ :=
    (multiIndex_spec ([10, 20, 30] : List Nat) [2, 0, 0, 1]).1 (by decide)
  rw [hw]
  have h0 := helem 0 (by decide)
  have h1 := helem 1 (by decide)
  have h2 := helem 2 (by decide)
  have h3 := helem 3 (by decide)
  simp only [List.length_cons, List.length_nil] at hlen
  have : w = [30, 10, 10, 20] := by
    apply List.ext_getElem?
    intro i
    match i with
    | 0 => exact h0
    | 1 => exact h1
    | 2 => exact h2
    | 3 => exact h3
    | (m + 4) =>
      rw [List.getElem?_eq_none (by omega), List.getElem?_eq_none (by simp)]
  rw [this]

/-! ## Claim C4: Table.Add length checking -/

/-- C4 (amended): `Add` fails with the length-mismatch panic, reporting
the name, the got and the want lengths, whenever the table has at least
one column whose name differs from `name` and the data length differs
from the row count; adding to a table with no columns succeeds and
adopts the data length as the row count; but replacing the only
column(s), all named `name`, also adopts the new length without any
check, which is the case the original claim misses. -/
theorem add_length_spec (t : Table V) (name : String) (d : List V) :
    ((∃ p ∈ t.cols, p.1 ≠ name) → d.length ≠ t.len →
      t.Add name d = .error (.lengthMismatch name d.length t.len)) ∧
    (t.cols = [] → t.Add name d = .ok ⟨[(name, d)], d.length⟩) ∧
    ((∀ p ∈ t.cols, p.1 = name) → t.Add name d = .ok ⟨[(name, d)], d.length⟩) := by
  refine ⟨fun ⟨p, hp, hne⟩ hlen => ?_, fun h => ?_, fun h => ?_⟩
  · rw [Table.Add]
    have hk : p ∈ t.cols.filter (fun p => ¬ (p.1 = name)) :=
      List.mem_filter.mpr ⟨hp, by simpa using hne⟩
    rw [if_neg (fun he => by rw [List.isEmpty_iff.mp he] at hk; simp at hk),
      if_pos (show t.len ≠ d.length from fun he => hlen he.symm)]
  · rw [Table.Add, if_pos (by simp [h])]
  · rw [Table.Add, if_pos]
    rw [List.isEmpty_iff, List.filter_eq_nil_iff]
    intro p hp
    simpa using h p hp

/-- C4 witness: instances of `add_length_spec` at concrete tables: the
mismatch error on a 3-row table, and length adoption on the empty
table. -/
theorem add_length_spec_witness :
    (Table.mk [("x", [0, 0, 0])] 3 : Table Nat).Add "y" [0, 0] =
      .error (.lengthMismatch "y" 2 3) ∧
    (Table.empty : Table Nat).Add "z" [5, 6] = .ok ⟨[("z", [5, 6])], 2⟩ := by
  constructor
  · exact (add_length_spec (Table.mk [("x", [0, 0, 0])] 3) "y" [0, 0]).1
      ⟨("x", [0, 0, 0]), by decide, by decide⟩ (by decide)
  · exact (add_length_spec (Table.empty : Table Nat) "z" [5, 6]).2.1 rfl

/-- C4 counterexample: a table holding a single 3-row column named "x"
has at least one column, yet adding a 2-element column also named "x"
succeeds (adopting the new length) instead of failing with the
length-mismatch error the claim requires. -/
theorem add_length_claim_counterexample :
    (Table.mk [("x", [0, 0, 0])] 3 : Table Nat).cols ≠ [] ∧
    ([0, 0] : List Nat).length ≠ (Table.mk [("x", [0, 0, 0])] 3 : Table Nat).len ∧
    (Table.mk [("x", [0, 0, 0])] 3 : Table Nat).Add "x" [0, 0] =
      .ok ⟨[("x", [0, 0])], 2⟩ := by
  refine ⟨by decide, by decide, by rfl⟩

/-! ## Claim C6: column order after Add -/

/-- `Table.Add` realizes one admissible schedule of `TableAddR`: its
result is always a possible outcome of the Go code. -/
theorem add_refines (t : Table V) (name : String) (data : List V) :
    TableAddR t name data (t.Add name data) :=
  ⟨t.cols.filter (fun p => ¬ (p.1 = name)), List.Perm.refl _, rfl⟩

/-- `gAddTable` realizes one admissible schedule of `gAddTableR`. -/
theorem gAddTable_refines (tabs : List (GroupID × Table V))
    (colNames : List String) (gid : GroupID) (t : Table V) :
    gAddTableR tabs colNames gid t (gAddTable tabs colNames gid t) := by
  rw [gAddTableR, gAddTable]
  by_cases h0 : t.cols = []
  · simp only [if_pos h0]
  · simp only [if_neg h0]
    refine ⟨tabs.filter (fun p => ¬ (p.1 = gid)), List.Perm.refl _, ?_⟩
    by_cases h1 : (tabs.filter (fun p => ¬ (p.1 = gid))).isEmpty
    · simp only [if_pos h1]
    · simp only [if_neg h1]
      cases hf : colNames.find? (fun c => (t.Column c).isNone) with
      | some c => rfl
      | none =>
        by_cases h2 : t.cols.length ≠ colNames.length
        · simp only [if_pos h2]
          cases hx : t.Columns.find? (fun c => ¬ (c ∈ colNames)) with
          | some c =>
            exact Or.inl ⟨c, List.mem_of_find?_eq_some hx,
              by simpa using List.find?_some hx, rfl⟩
          | none =>
            refine Or.inr ⟨?_, rfl⟩
            intro c hc
            have := List.find?_eq_none.mp hx c hc
            simpa using this
        · simp only [if_neg h2]

/-- C6: the Go `Add` rebuilds the kept columns by ranging over the map
`t.cols` (table.go:138-143), whose iteration order is unspecified, so
the program does not preserve the insertion order of the remaining
names: adding column c to a table with columns a, b admits both
[a, b, c] and [b, a, c] as `Columns()` results, and the second
violates the claimed order. -/
theorem add_order_unspecified :
    TableAddR (Table.mk [("a", [1]), ("b", [2])] 1 : Table Nat) "c" [3]
      (.ok ⟨[("a", [1]), ("b", [2]), ("c", [3])], 1⟩) ∧
    TableAddR (Table.mk [("a", [1]), ("b", [2])] 1 : Table Nat) "c" [3]
      (.ok ⟨[("b", [2]), ("a", [1]), ("c", [3])], 1⟩) ∧
    (Table.mk [("b", [2]), ("a", [1]), ("c", [3])] 1 : Table Nat).Columns ≠
      ["a", "b", "c"] :=
  ⟨⟨[("a", [1]), ("b", [2])], by decide, rfl⟩,
    ⟨[("b", [2]), ("a", [1])], by decide, rfl⟩,
    by decide⟩

/-! ## Claim C10: AddTable on the empty Table re-roots -/

/-- C10: adding any non-empty table `t2` to the canonical empty Table
returns `t2` itself, whose only group is `RootGroupID`: the requested
gid, root or not, is discarded. -/
theorem addTable_empty_reroots (gid : GroupID) (t2 : Table V)
    (h : t2.cols ≠ []) :
    (Grouping.table Table.empty).AddTable gid t2 = .ok (.table t2) ∧
    (Grouping.table t2).Tables = [GroupID.root] := by
  constructor
  · rw [Grouping.AddTable, if_neg (by simpa using h),
      if_pos (show gid = GroupID.root ∨ (Table.empty : Table V).cols = []
        from Or.inr rfl)]
  · rw [Grouping.Tables, Grouping.pairs, if_neg h]
    rfl

/-- C10 witness: instance of `addTable_empty_reroots` at a non-root
gid. -/
theorem addTable_empty_reroots_witness :
    (Grouping.table Table.empty).AddTable (GroupID.root.Extend "g")
        (Table.mk [("x", [1])] 1 : Table Nat) =
      .ok (.table (Table.mk [("x", [1])] 1)) ∧
    (Grouping.table (Table.mk [("x", [1])] 1 : Table Nat)).Tables =
      [GroupID.root] :=
  addTable_empty_reroots (GroupID.root.Extend "g")
    (Table.mk [("x", [1])] 1) (by decide)

/-! ## Claim C5: AddTable contract -/

/-- C5 (amended): adding the canonical empty table is a no-op; when no
groups remain after removing any existing binding of `gid`, the new
table's column set is adopted wholesale; when bindings remain in a
grouped table, a column-set mismatch fails with an error naming the
offending column and distinguishing missing from extra; but adding at
`RootGroupID` to a non-empty plain Table replaces the whole grouping by
the new table with no column check, the case the original claim
misses. -/
theorem addTable_contract (g : Grouping V) (tabs : List (GroupID × Table V))
    (colNames : List String) (gid : GroupID) (t t0 t2 : Table V) (c : String) :
    (t.cols = [] → g.AddTable gid t = .ok g) ∧
    (t.cols ≠ [] → tabs.filter (fun p => ¬ (p.1 = gid)) = [] →
      (Grouping.grouped tabs colNames).AddTable gid t =
        .ok (.grouped [(gid, t)] t.Columns)) ∧
    (t0.cols = [] → t.cols ≠ [] →
      (Grouping.table t0).AddTable gid t = .ok (.table t)) ∧
    (t.cols ≠ [] → tabs.filter (fun p => ¬ (p.1 = gid)) ≠ [] →
      colNames.find? (fun c2 => (t.Column c2).isNone) = some c →
      (Grouping.grouped tabs colNames).AddTable gid t =
        .error (.missingColumn c)) ∧
    (t.cols ≠ [] → tabs.filter (fun p => ¬ (p.1 = gid)) ≠ [] →
      colNames.find? (fun c2 => (t.Column c2).isNone) = none →
      t.cols.length ≠ colNames.length →
      t.Columns.find? (fun c2 => ¬ (c2 ∈ colNames)) = some c →
      (Grouping.grouped tabs colNames).AddTable gid t =
        .error (.extraColumn c)) ∧
    (t0.cols ≠ [] → t2.cols ≠ [] →
      (Grouping.table t0).AddTable .root t2 = .ok (.table t2)) := by
  refine ⟨fun h => ?_, fun h hk => ?_, fun h0 h => ?_, fun h hk hf => ?_,
    fun h hk hf hlen hx => ?_, fun h0 h2 => ?_⟩
  · cases g with
    | table t0 => rw [Grouping.AddTable, if_pos h]
    | grouped tabs0 cns0 => rw [Grouping.AddTable, gAddTable, if_pos h]; rfl
  · rw [Grouping.AddTable, gAddTable, if_neg h, if_pos (List.isEmpty_iff.mpr hk)]
    rfl
  · rw [Grouping.AddTable, if_neg h, if_pos (Or.inr h0)]
  · rw [Grouping.AddTable, gAddTable, if_neg h,
      if_neg (fun he => hk (List.isEmpty_iff.mp he)), hf]
    rfl
  · rw [Grouping.AddTable, gAddTable, if_neg h,
      if_neg (fun he => hk (List.isEmpty_iff.mp he)), hf]
    simp only [if_pos hlen, hx]
    rfl
  · rw [Grouping.AddTable, if_neg h2,
      if_pos (show GroupID.root = GroupID.root ∨ t0.cols = [] from Or.inl rfl)]

/-- C5 witness: instances of `addTable_contract`: the empty-table
no-op, wholesale adoption, the missing-column and extra-column errors,
and root replacement without a check. -/
theorem addTable_contract_witness :
    (Grouping.table (Table.mk [("x", [0])] 1 : Table Nat)).AddTable
        (GroupID.root.Extend "a") Table.empty =
      .ok (.table (Table.mk [("x", [0])] 1)) ∧
    (Grouping.grouped ([] : List (GroupID × Table Nat)) []).AddTable
        (GroupID.root.Extend "a") (Table.mk [("x", [0])] 1) =
      .ok (.grouped [(GroupID.root.Extend "a", Table.mk [("x", [0])] 1)] ["x"]) ∧
    (Grouping.grouped [(GroupID.root, (Table.mk [("x", [0, 0, 0])] 3 : Table Nat))]
        ["x"]).AddTable (GroupID.root.Extend "a") (Table.mk [("y", [0])] 1) =
      .error (.missingColumn "x") ∧
    (Grouping.grouped [(GroupID.root, (Table.mk [("x", [0, 0, 0])] 3 : Table Nat))]
        ["x"]).AddTable (GroupID.root.Extend "a")
        (Table.mk [("x", [0]), ("y", [0])] 1) =
      .error (.extraColumn "y") ∧
    (Grouping.table (Table.mk [("x", [0, 0, 0])] 3 : Table Nat)).AddTable
        GroupID.root (Table.mk [("y", [0])] 1) =
      .ok (.table (Table.mk [("y", [0])] 1)) := by
  refine ⟨?_, ?_, ?_, ?_, ?_⟩
  · exact (addTable_contract (Grouping.table (Table.mk [("x", [0])] 1))
      [] [] (GroupID.root.Extend "a") Table.empty Table.empty Table.empty "x").1 rfl
  · exact (addTable_contract (Grouping.table Table.empty)
      [] [] (GroupID.root.Extend "a") (Table.mk [("x", [0])] 1)
      Table.empty Table.empty "x").2.1 (by decide) rfl
  · exact (addTable_contract (Grouping.table Table.empty)
      [(GroupID.root, Table.mk [("x", [0, 0, 0])] 3)] ["x"]
      (GroupID.root.Extend "a") (Table.mk [("y", [0])] 1)
      Table.empty Table.empty "x").2.2.2.1 (by decide) (by decide) (by rfl)
  · exact (addTable_contract (Grouping.table Table.empty)
      [(GroupID.root, Table.mk [("x", [0, 0, 0])] 3)] ["x"]
      (GroupID.root.Extend "a") (Table.mk [("x", [0]), ("y", [0])] 1)
      Table.empty Table.empty "y").2.2.2.2.1 (by decide) (by decide) (by rfl)
      (by decide) (by rfl)
  · exact (addTable_contract (Grouping.table Table.empty)
      [] [] GroupID.root Table.empty (Table.mk [("x", [0, 0, 0])] 3)
      (Table.mk [("y", [0])] 1) "x").2.2.2.2.2 (by decide) (by decide)

/-- C5 counterexample: a non-empty Table grouping holds one group with
column set x; adding a table with the different column set y at the
root succeeds (replacing the grouping wholesale) instead of failing
with the column-set-mismatch error the claim requires. -/
theorem addTable_claim_counterexample :
    (Grouping.table (Table.mk [("x", [0])] 1) : Grouping Nat).pairs ≠ [] ∧
    ¬ SameColSet (Table.mk [("y", [0])] 1 : Table Nat).Columns
      (Grouping.table (Table.mk [("x", [0])] 1) : Grouping Nat).Columns ∧
    (Grouping.table (Table.mk [("x", [0])] 1)).AddTable GroupID.root
        (Table.mk [("y", [0])] 1) =
      .ok (.table (Table.mk [("y", [0])] 1)) := by
  refine ⟨by decide, ?_, by rfl⟩
  rintro ⟨h1, -⟩
  exact absurd (h1 "y" (by decide)) (by decide)

/-! ## Claim C1: GroupBy on x = [3,1,2] -/

/-- C1 evaluated at the claim's own example: grouping the table with
column x = [3,1,2] by x yields three singleton children in discovery
order 3, 1, 2, but the `AddTable` re-rooting binds the first child
(value 3) to `RootGroupID` instead of to the sub-group id 0, so the
group ids are /, /1, /2 rather than /0, /1, /2. -/
theorem groupBy_first_child_rerooted :
    GroupBy (Grouping.table (Table.mk [("x", [3, 1, 2])] 3) : Grouping Nat)
        ["x"] =
      .ok (.grouped
        [(GroupID.root, Table.mk [("x", [3])] 1),
          (GroupID.root.Extend "1", Table.mk [("x", [1])] 1),
          (GroupID.root.Extend "2", Table.mk [("x", [2])] 1)] ["x"]) ∧
    (Grouping.grouped
        [(GroupID.root, (Table.mk [("x", [3])] 1 : Table Nat)),
          (GroupID.root.Extend "1", Table.mk [("x", [1])] 1),
          (GroupID.root.Extend "2", Table.mk [("x", [2])] 1)] ["x"]).Tables ≠
      [GroupID.root.Extend "0", GroupID.root.Extend "1",
        GroupID.root.Extend "2"] := by
  constructor
  · rfl
  · decide

/-! ## Monad plumbing for Except -/

@[simp] theorem ok_bind {α β : Type} (x : α) (k : α → Except TabError β) :
    (Except.ok x >>= k) = k x := rfl

@[simp] theorem error_bind {α β : Type} (e : TabError)
    (k : α → Except TabError β) :
    ((Except.error e : Except TabError α) >>= k) = .error e := rfl

@[simp] theorem okBindE {α β : Type} (x : α) (k : α → Except TabError β) :
    (Except.ok x).bind k = k x := rfl

@[simp] theorem errorBindE {α β : Type} (e : TabError)
    (k : α → Except TabError β) :
    (Except.error e : Except TabError α).bind k = .error e := rfl

@[simp] theorem okMapE {α β : Type} (x : α) (f : α → β) :
    Except.map f (Except.ok x : Except TabError α) = .ok (f x) := rfl

@[simp] theorem errorMapE {α β : Type} (e : TabError) (f : α → β) :
    Except.map f (Except.error e : Except TabError α) = .error e := rfl

theorem foldlM_ok_preserve {α β : Type} (P : β → Prop)
    (f : β → α → Except TabError β) (L : List α)
    (hf : ∀ b a, a ∈ L → P b → ∀ b2, f b a = .ok b2 → P b2) :
    ∀ b b2, P b → L.foldlM f b = .ok b2 → P b2 := by
  induction L with
  | nil =>
    intro b b2 hb h
    simp only [List.foldlM_nil] at h
    cases h
    exact hb
  | cons a L ih =>
    intro b b2 hb h
    rw [List.foldlM_cons] at h
    cases hfa : f b a with
    | error e =>
      rw [hfa, error_bind] at h
      cases h
    | ok b1 =>
      rw [hfa, ok_bind] at h
      exact ih (fun b a ha => hf b a (List.mem_cons_of_mem _ ha)) b1 b2
        (hf b a (List.mem_cons_self a L) hb b1 hfa) h

theorem mapM_ok {α β : Type} (L : List α) (f : α → Except TabError β)
    (g : α → β) (h : ∀ a ∈ L, f a = .ok (g a)) :
    L.mapM f = .ok (L.map g) := by
  induction L with
  | nil => rfl
  | cons a L ih =>
    rw [List.mapM_cons, h a (List.mem_cons_self a L), List.map_cons,
      ih (fun a ha => h a (List.mem_cons_of_mem _ ha))]
    rfl

/-! ## SameColSet and lookup lemmas -/

theorem sameColSet_refl (l : List String) : SameColSet l l :=
  ⟨fun _ hs => hs, fun _ hs => hs⟩

theorem sameColSet_symm {l1 l2 : List String} (h : SameColSet l1 l2) :
    SameColSet l2 l1 := ⟨h.2, h.1⟩

theorem sameColSet_trans {l1 l2 l3 : List String} (h : SameColSet l1 l2)
    (h2 : SameColSet l2 l3) : SameColSet l1 l3 :=
  ⟨fun s hs => h2.1 s (h.1 s hs), fun s hs => h.2 s (h2.2 s hs)⟩

theorem sameColSet_length {l1 l2 : List String} (h : SameColSet l1 l2)
    (h1 : l1.Nodup) (h2 : l2.Nodup) : l1.length = l2.length :=
  ((List.perm_ext_iff_of_nodup h1 h2).mpr
    (fun s => ⟨h.1 s, h.2 s⟩)).length_eq

theorem sameColSet_of_subset_length {l1 l2 : List String}
    (hsub : ∀ s ∈ l1, s ∈ l2) (h1 : l1.Nodup) (h2 : l2.Nodup)
    (hlen : l2.length = l1.length) : SameColSet l2 l1 := by
  have hperm : l1.Perm l2 :=
    (List.Nodup.subperm h1 hsub).perm_of_length_le (by omega)
  exact ⟨fun s hs => hperm.mem_iff.mpr hs, fun s hs => hperm.mem_iff.mp hs⟩

theorem column_isSome_iff (t : Table V) (c : String) :
    (t.Column c).isSome = true ↔ c ∈ t.Columns := by
  rw [Table.Column]
  cases hf : t.cols.find? (fun p => p.1 = c) with
  | none =>
    rw [show (Option.map Prod.snd (none : Option (String × List V))).isSome = false
      from rfl]
    simp only [Bool.false_eq_true, false_iff]
    intro hc
    obtain ⟨p, hp, he⟩ := List.mem_map.mp hc
    have := List.find?_eq_none.mp hf p hp
    simp [he] at this
  | some p =>
    rw [show (Option.map Prod.snd (some p)).isSome = true from rfl]
    simp only [true_iff]
    have hmem := List.mem_of_find?_eq_some hf
    have heq := List.find?_some hf
    simp only [decide_eq_true_eq] at heq
    exact heq ▸ List.mem_map.mpr ⟨p, hmem, rfl⟩

theorem find?_fst_of_mem_nodup (L : List (String × List V))
    (p : String × List V) (hnd : (L.map Prod.fst).Nodup) (hp : p ∈ L) :
    L.find? (fun q => q.1 = p.1) = some p := by
  induction L with
  | nil => cases hp
  | cons a L ih =>
    rcases List.mem_cons.mp hp with rfl | hp2
    · rw [List.find?_cons_of_pos _ (by simp)]
    · rw [List.map_cons, List.nodup_cons] at hnd
      have hne : ¬ (a.1 = p.1) := by
        intro he
        exact hnd.1 (he ▸ List.mem_map.mpr ⟨p, hp2, rfl⟩)
      rw [List.find?_cons_of_neg _ (by simpa using hne)]
      exact ih hnd.2 hp2

theorem column_of_mem (t : Table V) (p : String × List V)
    (hw : t.Columns.Nodup) (hp : p ∈ t.cols) : t.Column p.1 = some p.2 := by
  rw [Table.Column, find?_fst_of_mem_nodup t.cols p hw hp]
  rfl

/-! ## WFT preservation -/

theorem WFT_empty : WFT (Table.empty : Table V) :=
  ⟨List.nodup_nil, by simp [Table.empty], fun _ => rfl⟩

theorem add_ok_WFT (t : Table V) (name : String) (d : List V) (t2 : Table V)
    (hw : WFT t) (h : t.Add name d = .ok t2) : WFT t2 := by
  rw [Table.Add] at h
  by_cases hk : (t.cols.filter (fun p => ¬ (p.1 = name))).isEmpty
  · rw [if_pos hk] at h
    cases h
    exact ⟨by simp [Table.Columns], by simp, by simp⟩
  · rw [if_neg hk] at h
    by_cases hl : t.len ≠ d.length
    · rw [if_pos hl] at h
      cases h
    · rw [if_neg hl] at h
      cases h
      refine ⟨?_, ?_, by simp⟩
      · rw [Table.Columns, List.map_append, List.nodup_append]
        refine ⟨((List.filter_sublist t.cols).map Prod.fst).nodup hw.1,
          List.nodup_singleton _, ?_⟩
        intro s hs hs2
        obtain ⟨p, hp, rfl⟩ := List.mem_map.mp hs
        have := (List.mem_filter.mp hp).2
        simp only [List.map_cons, List.map_nil, List.mem_singleton] at hs2
        simp [hs2] at this
      · intro p hp
        rcases List.mem_append.mp hp with h2 | h2
        · exact hw.2.1 p ((List.filter_sublist t.cols).mem h2)
        · simp only [List.mem_singleton] at h2
          rw [h2]
          show d.length = t.len
          omega

/-! ## WFG preservation through AddTable -/

theorem WFG_singleton (gid : GroupID) (t : Table V) (hw : WFT t)
    (hne : t.cols ≠ []) : WFG (.grouped [(gid, t)] t.Columns) := by
  refine ⟨List.nodup_singleton _, hw.1, ?_⟩
  intro p hp
  simp only [List.mem_singleton] at hp
  rw [hp]
  exact ⟨hw, hne, sameColSet_refl _⟩

theorem gAddTable_ok_WFG (tabs : List (GroupID × Table V)) (cns : List String)
    (gid : GroupID) (t : Table V) (tabs2 : List (GroupID × Table V))
    (cns2 : List String) (hg : WFG (.grouped tabs cns)) (ht : WFT t)
    (h : gAddTable tabs cns gid t = .ok (tabs2, cns2)) :
    WFG (.grouped tabs2 cns2) := by
  obtain ⟨hnd, hcns, hmem⟩ := hg
  rw [gAddTable] at h
  by_cases he : t.cols = []
  · rw [if_pos he] at h
    cases h
    exact ⟨hnd, hcns, hmem⟩
  · rw [if_neg he] at h
    by_cases hk : (tabs.filter (fun p => ¬ (p.1 = gid))).isEmpty
    · rw [if_pos hk] at h
      cases h
      exact WFG_singleton gid t ht he
    · rw [if_neg hk] at h
      have happend : SameColSet t.Columns cns →
          WFG (.grouped (tabs.filter (fun p => ¬ (p.1 = gid)) ++ [(gid, t)]) cns) := by
        intro hsame
        refine ⟨?_, hcns, ?_⟩
        · rw [List.map_append, List.nodup_append]
          refine ⟨((List.filter_sublist tabs).map Prod.fst).nodup hnd,
            List.nodup_singleton _, ?_⟩
          intro s hs hs2
          obtain ⟨p, hp, rfl⟩ := List.mem_map.mp hs
          have := (List.mem_filter.mp hp).2
          simp only [List.map_cons, List.map_nil, List.mem_singleton] at hs2
          simp [hs2] at this
        · intro p hp
          rcases List.mem_append.mp hp with h2 | h2
          · exact hmem p ((List.filter_sublist tabs).mem h2)
          · simp only [List.mem_singleton] at h2
            rw [h2]
            exact ⟨ht, he, hsame⟩
      cases hfind : cns.find? (fun c => (t.Column c).isNone) with
      | some c =>
        rw [hfind] at h
        cases h
      | none =>
        rw [hfind] at h
        have hsub : ∀ c ∈ cns, c ∈ t.Columns := by
          intro c hc
          have := List.find?_eq_none.mp hfind c hc
          simp only [Bool.not_eq_true, Option.isNone_eq_false_iff] at this
          exact (column_isSome_iff t c).mp this
        by_cases hlen : t.cols.length ≠ cns.length
        · rw [if_pos hlen] at h
          cases hx : t.Columns.find? (fun c => ¬ (c ∈ cns)) with
          | some c =>
            rw [hx] at h
            cases h
          | none =>
            rw [hx] at h
            cases h
            refine happend ⟨?_, hsub⟩
            intro s hs
            have := List.find?_eq_none.mp hx s hs
            simpa using this
        · rw [if_neg hlen] at h
          cases h
          refine happend
            (sameColSet_of_subset_length hsub hcns ht.1 ?_)
          rw [Table.Columns, List.length_map]
          omega

theorem addTable_ok_WFG (g : Grouping V) (gid : GroupID) (t : Table V)
    (g2 : Grouping V) (hg : WFG g) (ht : WFT t)
    (h : g.AddTable gid t = .ok g2) : WFG g2 := by
  cases g with
  | grouped tabs cns =>
    rw [Grouping.AddTable] at h
    cases hh : gAddTable tabs cns gid t with
    | error e =>
      rw [hh] at h
      cases h
    | ok p =>
      rw [hh] at h
      cases h
      exact gAddTable_ok_WFG tabs cns gid t p.1 p.2 hg ht hh
  | table t0 =>
    rw [Grouping.AddTable] at h
    by_cases h1 : t.cols = []
    · rw [if_pos h1] at h
      cases h
      exact hg
    · rw [if_neg h1] at h
      by_cases h2 : gid = .root ∨ t0.cols = []
      · rw [if_pos h2] at h
        cases h
        exact ht
      · rw [if_neg h2] at h
        have h0 : t0.cols ≠ [] := fun he => h2 (Or.inr he)
        have hfirst : gAddTable ([] : List (GroupID × Table V)) [] .root t0 =
            .ok ([(.root, t0)], t0.Columns) := by
          rw [gAddTable, if_neg h0]
          rfl
        rw [hfirst] at h
        simp only [okBindE] at h
        cases hh : gAddTable [(.root, t0)] t0.Columns gid t with
        | error e =>
          rw [hh] at h
          cases h
        | ok q =>
          rw [hh] at h
          cases h
          exact gAddTable_ok_WFG _ _ gid t q.1 q.2
            (WFG_singleton .root t0 hg h0) ht hh

theorem WFG_colsOk (g : Grouping V) (hg : WFG g) : ColsOk g := by
  cases g with
  | table t =>
    intro p hp
    rw [Grouping.pairs] at hp
    by_cases he : t.cols = []
    · rw [if_pos he] at hp
      cases hp
    · rw [if_neg he] at hp
      simp only [List.mem_singleton] at hp
      rw [hp]
      exact sameColSet_refl _
  | grouped tabs cns =>
    intro p hp
    exact (hg.2.2 p hp).2.2

/-! ## projectTable evaluates to projT -/

theorem multiIndex_ok (v : List V) (rows : List Nat)
    (h : ∀ i ∈ rows, i < v.length) :
    MultiIndex v rows = .ok (rows.map (fun i => v.getD i default)) := by
  rw [MultiIndex, if_pos]
  simpa using h

theorem add_append (acc : List (String × List V)) (tlen : Nat) (name : String)
    (d : List V) (hne : acc ≠ []) (hnotin : name ∉ acc.map Prod.fst)
    (hlen : d.length = tlen) :
    (Table.mk acc tlen).Add name d = .ok ⟨acc ++ [(name, d)], tlen⟩ := by
  have hfilter : acc.filter (fun p => ¬ (p.1 = name)) = acc :=
    List.filter_eq_self.mpr (fun p hp => by
      simp only [decide_eq_true_eq]
      intro he
      exact hnotin (he ▸ List.mem_map.mpr ⟨p, hp, rfl⟩))
  rw [Table.Add]
  show (if (acc.filter (fun p => ¬ (p.1 = name))).isEmpty then _
    else if tlen ≠ d.length then _ else _) = _
  rw [hfilter, if_neg (by simpa [List.isEmpty_iff] using hne),
    if_neg (show ¬ tlen ≠ d.length by omega)]

theorem add_to_empty (name : String) (d : List V) :
    (Table.empty : Table V).Add name d = .ok ⟨[(name, d)], d.length⟩ := by
  rw [Table.Add]
  rfl

theorem projectTable_eq (t : Table V) (rows : List Nat) (hw : WFT t)
    (hne : t.cols ≠ []) (hr : ∀ i ∈ rows, i < t.len) :
    projectTable t rows = .ok (projT t rows) := by
  have key : ∀ (L : List (String × List V)) (acc : List (String × List V)),
      (∀ p ∈ L, p.2.length = t.len) →
      ((acc.map Prod.fst ++ L.map Prod.fst).Nodup) →
      acc ≠ [] →
      L.foldlM (fun (subgroup : Table V) p => do
          let seq ← MultiIndex p.2 rows
          subgroup.Add p.1 seq)
        (⟨acc, rows.length⟩ : Table V) =
        .ok ⟨acc ++ L.map (fun p =>
          (p.1, rows.map (fun i => p.2.getD i default))), rows.length⟩ := by
    intro L
    induction L with
    | nil =>
      intro acc hlen hnd hne2
      simp only [List.foldlM_nil, List.map_nil, List.append_nil]
      rfl
    | cons p L ih =>
      intro acc hlen hnd hne2
      rw [List.foldlM_cons,
        multiIndex_ok p.2 rows
          (fun i hi => by rw [hlen p (List.mem_cons_self p L)]; exact hr i hi),
        ok_bind,
        add_append acc rows.length p.1 _ hne2
          (by
            rw [List.map_cons, List.nodup_append] at hnd
            exact fun hin => hnd.2.2 hin (List.mem_cons_self _ _))
          (by simp),
        ok_bind,
        ih (acc ++ [(p.1, rows.map (fun i => p.2.getD i default))])
          (fun q hq => hlen q (List.mem_cons_of_mem p hq))
          (by
            rw [List.map_append, List.append_assoc]
            simpa using hnd)
          (by simp),
        List.append_assoc]
      rfl
  match hcols : t.cols, hne with
  | c0 :: rest, _ =>
    have hw1 := hw.1
    rw [Table.Columns, hcols] at hw1
    rw [projectTable, hcols, List.foldlM_cons,
      multiIndex_ok c0.2 rows
        (fun i hi => by
          rw [hw.2.1 c0 (by rw [hcols]; exact List.mem_cons_self c0 rest)]
          exact hr i hi),
      ok_bind]
    have hfirst : (Table.empty : Table V).Add c0.1
        (rows.map (fun i => c0.2.getD i default)) =
        .ok ⟨[(c0.1, rows.map (fun i => c0.2.getD i default))], rows.length⟩ := by
      rw [Table.Add]
      show (if ((List.filter _ [])).isEmpty then _ else _) = _
      simp
    rw [hfirst, ok_bind,
      key rest [(c0.1, rows.map (fun i => c0.2.getD i default))]
        (fun q hq => hw.2.1 q (by rw [hcols]; exact List.mem_cons_of_mem c0 hq))
        (by simpa using hw1)
        (by simp)]
    rw [projT, hcols]
    rfl

theorem projT_WFT (t : Table V) (rows : List Nat) (hw : WFT t)
    (hne : t.cols ≠ []) : WFT (projT t rows) := by
  refine ⟨?_, ?_, ?_⟩
  · show ((t.cols.map _).map Prod.fst).Nodup
    rw [List.map_map]
    exact hw.1
  · intro p hp
    obtain ⟨q, hq, rfl⟩ := List.mem_map.mp hp
    simp [projT]
  · intro h
    simp only [projT, List.map_eq_nil_iff] at h
    exact absurd h hne

theorem projT_Columns (t : Table V) (rows : List Nat) :
    (projT t rows).Columns = t.Columns := by
  rw [projT, Table.Columns, Table.Columns, List.map_map]
  rfl

theorem projT_Column (t : Table V) (rows : List Nat) (c : String) :
    (projT t rows).Column c =
      (t.Column c).map (fun col => rows.map (fun i => col.getD i default)) := by
  rw [projT, Table.Column, Table.Column, List.find?_map]
  rw [show ((fun (p : String × List V) => decide (p.1 = c)) ∘
      (fun (p : String × List V) =>
        (p.1, rows.map (fun i => p.2.getD i default)))) =
    (fun (p : String × List V) => decide (p.1 = c)) from rfl]
  cases t.cols.find? (fun p => p.1 = c) <;> rfl

/-! ## Chains of AddTable from the empty table -/

theorem foldlM_emit_addTable {α : Type} (gf : α → GroupID)
    (tf : α → Except TabError (Table V)) (tv : α → Table V) :
    ∀ (L : List α) (init : Grouping V), (∀ a ∈ L, tf a = .ok (tv a)) →
      L.foldlM (fun out a => do
          let s ← tf a
          out.AddTable (gf a) s) init =
        addAllE init (L.map (fun a => (gf a, tv a))) := by
  intro L
  induction L with
  | nil => intro init h; rfl
  | cons a L ih =>
    intro init h
    rw [List.foldlM_cons, h a (List.mem_cons_self a L), ok_bind, addAllE,
      List.map_cons, List.foldlM_cons]
    cases hadd : init.AddTable (gf a) (tv a) with
    | error e => rw [error_bind, error_bind]
    | ok b =>
      rw [ok_bind, ok_bind]
      exact ih b (fun x hx => h x (List.mem_cons_of_mem a hx))

theorem addTable_to_empty (t : Table V) (gid : GroupID) (hne : t.cols ≠ []) :
    (Grouping.table Table.empty).AddTable gid t = .ok (.table t) := by
  rw [Grouping.AddTable, if_neg (by simpa using hne),
    if_pos (show gid = GroupID.root ∨ (Table.empty : Table V).cols = []
      from Or.inr rfl)]

theorem addTable_root_to_table (t1 t2 : Table V) (hne : t2.cols ≠ []) :
    (Grouping.table t1).AddTable .root t2 = .ok (.table t2) := by
  rw [Grouping.AddTable, if_neg (by simpa using hne),
    if_pos (Or.inl rfl)]

theorem gAddTable_append (tabs : List (GroupID × Table V)) (cns : List String)
    (gid : GroupID) (t : Table V) (hne : t.cols ≠ [])
    (hnotin : gid ∉ tabs.map Prod.fst) (htabs : tabs ≠ [])
    (hsame : SameColSet t.Columns cns) (hnd : t.Columns.Nodup)
    (hcns : cns.Nodup) :
    gAddTable tabs cns gid t = .ok (tabs ++ [(gid, t)], cns) := by
  have hfilter : tabs.filter (fun p => ¬ (p.1 = gid)) = tabs :=
    List.filter_eq_self.mpr (fun p hp => by
      simp only [decide_eq_true_eq]
      intro he
      exact hnotin (he ▸ List.mem_map.mpr ⟨p, hp, rfl⟩))
  rw [gAddTable, if_neg hne]
  show (if (tabs.filter (fun p => ¬ (p.1 = gid))).isEmpty then _ else _) = _
  rw [hfilter, if_neg (by simpa [List.isEmpty_iff] using htabs)]
  have hmiss : cns.find? (fun c => (t.Column c).isNone) = none := by
    rw [List.find?_eq_none]
    intro c hc
    have : (t.Column c).isSome = true :=
      (column_isSome_iff t c).mpr (hsame.2 c hc)
    simp only [Bool.not_eq_true, Option.isNone_eq_false_iff]
    exact this
  rw [hmiss]
  have hlen : t.cols.length = cns.length := by
    have := sameColSet_length hsame hnd hcns
    rw [Table.Columns, List.length_map] at this
    exact this
  rw [if_neg (show ¬ t.cols.length ≠ cns.length by omega)]

theorem addTable_join_to_table (t1 t2 : Table V) (gid : GroupID)
    (hgid : gid ≠ .root) (h1 : t1.cols ≠ []) (h2 : t2.cols ≠ [])
    (hsame : SameColSet t2.Columns t1.Columns) (hnd1 : t1.Columns.Nodup)
    (hnd2 : t2.Columns.Nodup) :
    (Grouping.table t1).AddTable gid t2 =
      .ok (.grouped [(.root, t1), (gid, t2)] t1.Columns) := by
  rw [Grouping.AddTable, if_neg (by simpa using h2),
    if_neg (by
      rintro (he | he)
      · exact hgid he
      · exact h1 he)]
  have hfirst : gAddTable ([] : List (GroupID × Table V)) [] .root t1 =
      .ok ([(.root, t1)], t1.Columns) := by
    rw [gAddTable, if_neg h1]
    rfl
  rw [hfirst, okBindE,
    gAddTable_append [(.root, t1)] t1.Columns gid t2 h2
      (by simpa using hgid) (by simp) hsame hnd2 hnd1]
  rfl

theorem addAllE_from_grouped :
    ∀ (rest tabs : List (GroupID × Table V)) (cns : List String),
      tabs ≠ [] → cns.Nodup →
      (∀ r ∈ rest, r.1 ∉ tabs.map Prod.fst) →
      (rest.map Prod.fst).Nodup →
      (∀ r ∈ rest, r.2.cols ≠ [] ∧ r.2.Columns.Nodup ∧
        SameColSet r.2.Columns cns) →
      addAllE (.grouped tabs cns) rest = .ok (.grouped (tabs ++ rest) cns) := by
  intro rest
  induction rest with
  | nil =>
    intro tabs cns _ _ _ _ _
    simp only [addAllE, List.foldlM_nil, List.append_nil]
    rfl
  | cons r rest ih =>
    intro tabs cns htabs hcns hnotin hnd hprops
    obtain ⟨hne, hndr, hsame⟩ := hprops r (List.mem_cons_self r rest)
    rw [addAllE, List.foldlM_cons]
    have hstep : (Grouping.grouped tabs cns).AddTable r.1 r.2 =
        .ok (.grouped (tabs ++ [r]) cns) := by
      rw [Grouping.AddTable,
        gAddTable_append tabs cns r.1 r.2 hne
          (hnotin r (List.mem_cons_self r rest)) htabs hsame hndr hcns]
      rfl
    rw [hstep, ok_bind]
    have := ih (tabs ++ [r]) cns (by simp) hcns
      (fun q hq => by
        rw [List.map_append, List.mem_append]
        rintro (hin | hin)
        · exact hnotin q (List.mem_cons_of_mem r hq) hin
        · rw [List.map_cons, List.nodup_cons] at hnd
          simp only [List.map_cons, List.map_nil, List.mem_singleton] at hin
          exact hnd.1 (hin ▸ List.mem_map.mpr ⟨q, hq, rfl⟩))
      (by rw [List.map_cons, List.nodup_cons] at hnd; exact hnd.2)
      (fun q hq => hprops q (List.mem_cons_of_mem r hq))
    rw [addAllE] at this
    rw [this, List.append_assoc]
    rfl

theorem buildShape_head (a b : GroupID) (t : Table V)
    (l : List (GroupID × Table V)) :
    buildShape ((a, t) :: l) = buildShape ((b, t) :: l) := by
  cases l with
  | nil => rfl
  | cons p l2 => rfl

theorem addAllE_from_table :
    ∀ (qs : List (GroupID × Table V)) (t1 : Table V),
      t1.cols ≠ [] → t1.Columns.Nodup →
      (qs.map Prod.fst).Nodup → .root ∉ (qs.map Prod.fst).drop 1 →
      (∀ q ∈ qs, q.2.cols ≠ [] ∧ q.2.Columns.Nodup ∧
        SameColSet q.2.Columns t1.Columns) →
      addAllE (.table t1) qs = .ok (buildShape ((.root, t1) :: qs)) := by
  intro qs
  induction qs with
  | nil =>
    intro t1 _ _ _ _ _
    rfl
  | cons q qs ih =>
    intro t1 h1 hnd1 hnd hroot hprops
    obtain ⟨hqne, hqnd, hqsame⟩ := hprops q (List.mem_cons_self q qs)
    by_cases hq : q.1 = .root
    · rw [addAllE, List.foldlM_cons, hq, addTable_root_to_table t1 q.2 hqne,
        ok_bind]
      have heq : addAllE (.table q.2) qs = .ok (buildShape ((.root, q.2) :: qs)) := by
        apply ih q.2 hqne hqnd
          (by rw [List.map_cons, List.nodup_cons] at hnd; exact hnd.2)
          (by
            intro hin
            apply hroot
            rw [List.map_cons]
            simpa using List.mem_of_mem_drop hin)
          (fun p hp => by
            obtain ⟨hne2, hnd2, hsame2⟩ := hprops p (List.mem_cons_of_mem q hp)
            exact ⟨hne2, hnd2, sameColSet_trans hsame2 (sameColSet_symm hqsame)⟩)
      rw [addAllE] at heq
      rw [heq]
      have : buildShape ((GroupID.root, t1) :: q :: qs) = buildShape (q :: qs) := by
        rw [buildShape]
        rw [if_pos hq]
      rw [this, ← hq]
    · rw [addAllE, List.foldlM_cons,
        addTable_join_to_table t1 q.2 q.1 hq h1 hqne hqsame hnd1 hqnd, ok_bind]
      have hrest := addAllE_from_grouped qs [(.root, t1), (q.1, q.2)] t1.Columns
        (by simp) hnd1
        (fun r hr => by
          simp only [List.map_cons, List.map_nil, List.mem_cons,
            List.mem_singleton, List.not_mem_nil, or_false]
          rintro (he | he)
          · have hmem : GroupID.root ∈ qs.map Prod.fst :=
              he ▸ (List.mem_map.mpr ⟨r, hr, rfl⟩ : r.1 ∈ qs.map Prod.fst)
            apply hroot
            rw [List.map_cons]
            simpa using hmem
          · rw [List.map_cons, List.nodup_cons] at hnd
            exact hnd.1
              (he ▸ (List.mem_map.mpr ⟨r, hr, rfl⟩ : r.1 ∈ qs.map Prod.fst)))
        (by rw [List.map_cons, List.nodup_cons] at hnd; exact hnd.2)
        (fun r hr => hprops r (List.mem_cons_of_mem q hr))
      rw [addAllE] at hrest
      rw [show ((q.1, q.2) : GroupID × Table V) = q from rfl] at hrest
      rw [hrest]
      have : buildShape ((GroupID.root, t1) :: q :: qs) =
          .grouped ((.root, t1) :: q :: qs) t1.Columns := by
        rw [buildShape, if_neg hq]
      rw [this]
      rfl

theorem addAllE_shape (ps : List (GroupID × Table V))
    (hnd : (ps.map Prod.fst).Nodup) (hroot : .root ∉ (ps.map Prod.fst).drop 2)
    (hprops : ∀ p ∈ ps, p.2.cols ≠ [] ∧ p.2.Columns.Nodup)
    (hsame : ∀ p ∈ ps, ∀ q ∈ ps, SameColSet p.2.Columns q.2.Columns) :
    addAllE (.table Table.empty) ps = .ok (buildShape ps) := by
  cases ps with
  | nil => rfl
  | cons p ps2 =>
    obtain ⟨hne, hnd1⟩ := hprops p (List.mem_cons_self p ps2)
    rw [addAllE, List.foldlM_cons, addTable_to_empty p.2 p.1 hne, ok_bind]
    have := addAllE_from_table ps2 p.2 hne hnd1
      (by rw [List.map_cons, List.nodup_cons] at hnd; exact hnd.2)
      (by
        intro hin
        apply hroot
        rw [List.map_cons]
        exact hin)
      (fun q hq => ⟨(hprops q (List.mem_cons_of_mem p hq)).1,
        (hprops q (List.mem_cons_of_mem p hq)).2,
        hsame q (List.mem_cons_of_mem p hq) p (List.mem_cons_self p ps2)⟩)
    rw [addAllE] at this
    rw [this, buildShape_head .root p.1 p.2 ps2]

/-! ## The column-set invariant across every operation -/

theorem WFG_pairs_WFT (g : Grouping V) (hg : WFG g) :
    ∀ p ∈ g.pairs, WFT p.2 := by
  cases g with
  | table t =>
    intro p hp
    rw [Grouping.pairs] at hp
    by_cases he : t.cols = []
    · rw [if_pos he] at hp
      cases hp
    · rw [if_neg he] at hp
      simp only [List.mem_singleton] at hp
      rw [hp]
      exact hg
  | grouped tabs cns =>
    intro p hp
    exact (hg.2.2 p hp).1

theorem projectTable_ok_WFT (t : Table V) (rows : List Nat) (t2 : Table V)
    (h : projectTable t rows = .ok t2) : WFT t2 := by
  refine foldlM_ok_preserve WFT _ t.cols ?_ Table.empty t2 WFT_empty h
  intro b p hp hb b2 hstep
  cases hmi : MultiIndex p.2 rows with
  | error e =>
    rw [hmi, error_bind] at hstep
    cases hstep
  | ok seq =>
    rw [hmi, ok_bind] at hstep
    exact add_ok_WFT b p.1 seq b2 hb hstep

theorem concatRows_ok_WFT (tabs : List (Table V)) (t2 : Table V)
    (hmem : ∀ t ∈ tabs, WFT t) (h : concatRows tabs = .ok t2) : WFT t2 := by
  cases tabs with
  | nil =>
    simp only [concatRows] at h
    cases h
    exact WFT_empty
  | cons t0 rest =>
    cases rest with
    | nil =>
      simp only [concatRows] at h
      cases h
      exact hmem _ (List.mem_cons_self _ _)
    | cons t1 rest2 =>
      simp only [concatRows] at h
      refine foldlM_ok_preserve WFT _ t0.Columns ?_ Table.empty t2 WFT_empty h
      intro b name hn hb b2 hstep
      cases hmm : (t0 :: t1 :: rest2).mapM (fun tab => getColE tab name) with
      | error e =>
        rw [hmm, error_bind] at hstep
        cases hstep
      | ok segs =>
        rw [hmm, ok_bind] at hstep
        exact add_ok_WFT b name segs.flatten b2 hb hstep

theorem groupByCol_ok_WFG (g : Grouping V) (col : String) (g2 : Grouping V)
    (hg : WFG g) (h : groupByCol g col = .ok g2) : WFG g2 := by
  refine foldlM_ok_preserve WFG _ g.pairs ?_ (.table Table.empty) g2 WFT_empty h
  intro out p hp hout b2 hstep
  cases hmc : p.2.MustColumn col with
  | error e =>
    rw [hmc, error_bind] at hstep
    cases hstep
  | ok xs =>
    rw [hmc, ok_bind] at hstep
    refine foldlM_ok_preserve WFG _ (groupIndex xs).enum ?_ out b2 hout hstep
    intro out2 q hq hout2 b3 hstep2
    cases hpt : projectTable p.2 q.2.2 with
    | error e =>
      rw [hpt, error_bind] at hstep2
      cases hstep2
    | ok sub =>
      rw [hpt, ok_bind] at hstep2
      exact addTable_ok_WFG out2 (p.1.Extend (toString q.1)) sub b3 hout2
        (projectTable_ok_WFT p.2 q.2.2 sub hpt) hstep2

theorem groupBy_ok_WFG (cols : List String) :
    ∀ (g : Grouping V) (g2 : Grouping V), WFG g → GroupBy g cols = .ok g2 →
      WFG g2 := by
  induction cols with
  | nil =>
    intro g g2 hg h
    cases h
    exact hg
  | cons col rest ih =>
    intro g g2 hg h
    rw [GroupBy] at h
    cases hcol : groupByCol g col with
    | error e =>
      rw [hcol, errorBindE] at h
      cases h
    | ok mid =>
      rw [hcol, okBindE] at h
      exact ih mid g2 (groupByCol_ok_WFG g col mid hg hcol) h

theorem sortBy_ok_WFG [LinearOrder V] (g : Grouping V) (col : String)
    (g2 : Grouping V) (hg : WFG g) (h : SortBy g col = .ok g2) : WFG g2 := by
  refine foldlM_ok_preserve WFG _ g.pairs ?_ (.table Table.empty) g2 WFT_empty h
  intro out p hp hout b2 hstep
  cases hmc : p.2.MustColumn col with
  | error e =>
    rw [hmc, error_bind] at hstep
    cases hstep
  | ok seq =>
    rw [hmc, ok_bind] at hstep
    by_cases hs : isSortedSeq seq
    · rw [if_pos hs] at hstep
      exact addTable_ok_WFG out p.1 p.2 b2 hout (WFG_pairs_WFT g hg p hp) hstep
    · rw [if_neg hs] at hstep
      cases hpt : projectTable p.2 (sortPerm seq p.2.Len) with
      | error e =>
        rw [hpt, error_bind] at hstep
        cases hstep
      | ok nt =>
        rw [hpt, ok_bind] at hstep
        exact addTable_ok_WFG out p.1 nt b2 hout
          (projectTable_ok_WFT p.2 _ nt hpt) hstep

theorem ungroup_ok_WFG (g : Grouping V) (g2 : Grouping V) (hg : WFG g)
    (h : Ungroup g = .ok g2) : WFG g2 := by
  rw [Ungroup] at h
  split at h
  · cases h
    exact hg
  · rename_i gid0 t0 rest hpairs
    by_cases hone : rest = [] ∧ gid0 = .root
    · rw [if_pos hone] at h
      cases h
      exact hg
    · rw [if_neg hone] at h
      cases hfold : g.pairs.foldlM
          (fun (st : Grouping V × GroupID × List (Table V)) p => do
            if p.1.Parent ≠ st.2.1 then do
              let run ← concatRows st.2.2
              let out ← st.1.AddTable st.2.1 run
              pure (out, p.1.Parent, [p.2])
            else
              pure (st.1, st.2.1, st.2.2 ++ [p.2]))
          ((.table Table.empty : Grouping V), gid0.Parent, ([] : List (Table V))) with
      | error e =>
        rw [hfold, error_bind] at h
        cases h
      | ok st =>
        rw [hfold, ok_bind] at h
        have hP : WFG st.1 ∧ ∀ tb ∈ st.2.2, WFT tb := by
          refine foldlM_ok_preserve
            (fun st => WFG st.1 ∧ ∀ tb ∈ st.2.2, WFT tb) _ g.pairs ?_
            _ st ⟨show WFG (Grouping.table Table.empty) from WFT_empty,
              by simp⟩ hfold
          intro b p hp hb b2 hstep
          by_cases hpar : p.1.Parent ≠ b.2.1
          · rw [if_pos hpar] at hstep
            cases hcr : concatRows b.2.2 with
            | error e =>
              rw [hcr, error_bind] at hstep
              cases hstep
            | ok run =>
              rw [hcr, ok_bind] at hstep
              cases hadd : b.1.AddTable b.2.1 run with
              | error e =>
                rw [hadd, error_bind] at hstep
                cases hstep
              | ok out =>
                rw [hadd, ok_bind] at hstep
                cases hstep
                refine ⟨addTable_ok_WFG b.1 b.2.1 run _ hb.1
                  (concatRows_ok_WFT b.2.2 run hb.2 hcr) hadd, ?_⟩
                intro tb htb
                simp only [List.mem_singleton] at htb
                rw [htb]
                exact WFG_pairs_WFT g hg p hp
          · rw [if_neg hpar] at hstep
            cases hstep
            refine ⟨hb.1, ?_⟩
            intro tb htb
            rcases List.mem_append.mp htb with h2 | h2
            · exact hb.2 tb h2
            · simp only [List.mem_singleton] at h2
              rw [h2]
              exact WFG_pairs_WFT g hg p hp
        cases hcr : concatRows st.2.2 with
        | error e =>
          rw [hcr, error_bind] at h
          cases h
        | ok run =>
          rw [hcr, ok_bind] at h
          exact addTable_ok_WFG st.1 st.2.1 run g2 hP.1
            (concatRows_ok_WFT st.2.2 run hP.2 hcr) h

theorem flatten_ok_WFT (g : Grouping V) (t2 : Table V) (hg : WFG g)
    (h : Flatten g = .ok t2) : WFT t2 := by
  rw [Flatten] at h
  split at h
  · cases h
    exact WFT_empty
  · rename_i p hpairs
    cases h
    exact WFG_pairs_WFT g hg p (by rw [hpairs]; exact List.mem_cons_self p [])
  · refine concatRows_ok_WFT (g.pairs.map Prod.snd) t2 ?_ h
    intro t ht
    obtain ⟨p, hp, rfl⟩ := List.mem_map.mp ht
    exact WFG_pairs_WFT g hg p hp

theorem mapTables_ok_colsOk (f : GroupID → Table V → Except TabError (Table V))
    (g : Grouping V) (g2 : Grouping V) (h : MapTables f g = .ok g2) :
    ColsOk g2 := by
  rw [MapTables] at h
  cases hmm : g.pairs.mapM (fun p => do
      let t ← f p.1 p.2
      pure (p.1, t)) with
  | error e =>
    rw [hmm, error_bind] at h
    cases h
  | ok ps =>
    rw [hmm, ok_bind] at h
    cases ps with
    | nil =>
      simp only [groupingBuilderDone] at h
      cases h
      intro p hp
      simp [Grouping.pairs, Table.empty] at hp
    | cons p0 rest =>
      simp only [groupingBuilderDone] at h
      cases hfs : rest.findSome? (fun p =>
          (p0.2.Columns.find? (fun c => ¬ (c ∈ p.2.Columns))).or
            (p.2.Columns.find? (fun c => ¬ (c ∈ p0.2.Columns)))) with
      | some c =>
        rw [hfs] at h
        cases h
      | none =>
        rw [hfs] at h
        cases h
        intro p hp
        rcases List.mem_cons.mp hp with rfl | hp2
        · exact sameColSet_refl _
        · have hor := List.findSome?_eq_none_iff.mp hfs p hp2
          obtain ⟨h1, h2⟩ := Option.or_eq_none.mp hor
          constructor
          · intro s hs
            have := List.find?_eq_none.mp h2 s hs
            simpa using this
          · intro s hs
            have := List.find?_eq_none.mp h1 s hs
            simpa using this

/-- C2: every Grouping produced by the public operations (`AddTable`,
`GroupBy`, `Ungroup`, `Flatten`, `SortBy`, `FilterEq`, `MapTables`)
satisfies the invariant: every Table bound in it has the same
column-name set, and that set is what `Columns()` reports. -/
theorem colset_invariant [LinearOrder V] :
    (∀ (g : Grouping V) (gid : GroupID) (t : Table V) (g2 : Grouping V),
      WFG g → WFT t → g.AddTable gid t = .ok g2 → ColsOk g2) ∧
    (∀ (g : Grouping V) (cols : List String) (g2 : Grouping V),
      WFG g → GroupBy g cols = .ok g2 → ColsOk g2) ∧
    (∀ (g : Grouping V) (g2 : Grouping V),
      WFG g → Ungroup g = .ok g2 → ColsOk g2) ∧
    (∀ (g : Grouping V) (t2 : Table V),
      WFG g → Flatten g = .ok t2 → ColsOk (.table t2)) ∧
    (∀ (g : Grouping V) (col : String) (g2 : Grouping V),
      WFG g → SortBy g col = .ok g2 → ColsOk g2) ∧
    (∀ (g : Grouping V) (col : String) (v : V) (g2 : Grouping V),
      FilterEq g col v = .ok g2 → ColsOk g2) ∧
    (∀ (f : GroupID → Table V → Except TabError (Table V)) (g g2 : Grouping V),
      MapTables f g = .ok g2 → ColsOk g2) := by
  refine ⟨?_, ?_, ?_, ?_, ?_, ?_, ?_⟩
  · intro g gid t g2 hg ht h
    exact WFG_colsOk g2 (addTable_ok_WFG g gid t g2 hg ht h)
  · intro g cols g2 hg h
    exact WFG_colsOk g2 (groupBy_ok_WFG cols g g2 hg h)
  · intro g g2 hg h
    exact WFG_colsOk g2 (ungroup_ok_WFG g g2 hg h)
  · intro g t2 hg h
    exact WFG_colsOk _ (flatten_ok_WFT g t2 hg h)
  · intro g col g2 hg h
    exact WFG_colsOk g2 (sortBy_ok_WFG g col g2 hg h)
  · intro g col v g2 h
    exact mapTables_ok_colsOk _ g g2 h
  · intro f g g2 h
    exact mapTables_ok_colsOk f g g2 h

/-- C2 witness: the invariant instantiated on the grouping obtained by
adding a table to a concrete one-group grouping. -/
theorem colset_invariant_witness :
    ColsOk (Grouping.grouped
      [(GroupID.root, (Table.mk [("x", [0])] 1 : Table Nat)),
        (GroupID.root.Extend "a", Table.mk [("x", [7])] 1)] ["x"]) := by
  refine (colset_invariant (V := Nat)).1
    (Grouping.grouped [(GroupID.root, Table.mk [("x", [0])] 1)] ["x"])
    (GroupID.root.Extend "a") (Table.mk [("x", [7])] 1) _ ?_ ?_ (by rfl)
  · refine ⟨by decide, by decide, ?_⟩
    intro p hp
    simp only [List.mem_singleton] at hp
    rw [hp]
    exact ⟨⟨by decide, by decide, by decide⟩, by decide,
      ⟨fun s hs => hs, fun s hs => hs⟩⟩
  · exact ⟨by decide, by decide, by decide⟩

/-! ## The group index of a block-contiguous column -/

theorem groupIndexAdd_existing (acc0 : List (V × List Nat)) (v : V)
    (l : List Nat) (i : Nat) (hfresh : v ∉ acc0.map Prod.fst) :
    groupIndexAdd (acc0 ++ [(v, l)]) v i = acc0 ++ [(v, l ++ [i])] := by
  rw [groupIndexAdd, if_pos (by simp), List.map_append]
  congr 1
  · refine (List.map_congr_left ?_).trans (List.map_id acc0)
    intro p hp
    have hne : ¬ (p.1 = v) := fun he =>
      hfresh (he ▸ List.mem_map.mpr ⟨p, hp, rfl⟩)
    rw [if_neg hne]
    rfl
  · simp

theorem groupIndexAdd_fresh (acc : List (V × List Nat)) (v : V) (i : Nat)
    (hfresh : v ∉ acc.map Prod.fst) :
    groupIndexAdd acc v i = acc ++ [(v, [i])] := by
  rw [groupIndexAdd, if_neg]
  simp only [List.any_eq_true, decide_eq_true_eq, not_exists, not_and]
  intro p hp he
  exact hfresh (he ▸ List.mem_map.mpr ⟨p, hp, rfl⟩)

theorem groupIndex_fold_block (v : V) :
    ∀ (n i0 : Nat) (acc0 : List (V × List Nat)) (l : List Nat),
      v ∉ acc0.map Prod.fst →
      (List.enumFrom i0 (List.replicate n v)).foldl
          (fun acc p => groupIndexAdd acc p.2 p.1) (acc0 ++ [(v, l)]) =
        acc0 ++ [(v, l ++ List.range' i0 n)] := by
  intro n
  induction n with
  | zero =>
    intro i0 acc0 l hfresh
    simp [List.replicate]
  | succ n ih =>
    intro i0 acc0 l hfresh
    rw [List.replicate_succ, List.enumFrom_cons, List.foldl_cons,
      groupIndexAdd_existing acc0 v l i0 hfresh, ih (i0 + 1) acc0 _ hfresh,
      List.range'_succ, List.append_assoc]
    rfl

theorem groupIndex_fold_blocks :
    ∀ (bs : List (V × Nat)) (i0 : Nat) (acc : List (V × List Nat)),
      (acc.map Prod.fst ++ bs.map Prod.fst).Nodup →
      (∀ b ∈ bs, 0 < b.2) →
      (List.enumFrom i0
          ((bs.map (fun b => List.replicate b.2 b.1)).flatten)).foldl
          (fun acc p => groupIndexAdd acc p.2 p.1) acc =
        acc ++ groupIndexOfBlocks i0 bs := by
  intro bs
  induction bs with
  | nil =>
    intro i0 acc hnd hpos
    simp [groupIndexOfBlocks]
  | cons b bs ih =>
    intro i0 acc hnd hpos
    have hfresh : b.1 ∉ acc.map Prod.fst := by
      rw [List.map_cons, List.nodup_append] at hnd
      intro hin
      exact hnd.2.2 hin (List.mem_cons_self _ _)
    rw [List.map_cons, List.flatten_cons, List.enumFrom_append,
      List.foldl_append]
    obtain ⟨m, hm⟩ : ∃ m, b.2 = m + 1 := by
      have := hpos b (List.mem_cons_self b bs)
      exact ⟨b.2 - 1, by omega⟩
    have hblock : (List.enumFrom i0 (List.replicate b.2 b.1)).foldl
        (fun acc p => groupIndexAdd acc p.2 p.1) acc =
        acc ++ [(b.1, List.range' i0 b.2)] := by
      rw [hm, List.replicate_succ, List.enumFrom_cons, List.foldl_cons,
        groupIndexAdd_fresh acc b.1 i0 hfresh,
        groupIndex_fold_block b.1 m (i0 + 1) acc [i0] hfresh,
        List.range'_succ]
      rfl
    rw [hblock, List.length_replicate,
      ih (i0 + b.2) (acc ++ [(b.1, List.range' i0 b.2)])
        (by
          rw [List.map_append, List.append_assoc]
          simpa using hnd)
        (fun q hq => hpos q (List.mem_cons_of_mem b hq)),
      groupIndexOfBlocks, List.append_assoc]
    rfl

theorem groupIndex_of_blocks (bs : List (V × Nat))
    (hnd : (bs.map Prod.fst).Nodup) (hpos : ∀ b ∈ bs, 0 < b.2) :
    groupIndex ((bs.map (fun b => List.replicate b.2 b.1)).flatten) =
      groupIndexOfBlocks 0 bs := by
  rw [groupIndex,
    show ((bs.map (fun b => List.replicate b.2 b.1)).flatten).enum =
      List.enumFrom 0 ((bs.map (fun b => List.replicate b.2 b.1)).flatten)
      from rfl,
    groupIndex_fold_blocks bs 0 [] (by simpa using hnd) hpos]
  rfl

theorem groupIndexOfBlocks_length (i0 : Nat) (bs : List (V × Nat)) :
    (groupIndexOfBlocks i0 bs).length = bs.length := by
  induction bs generalizing i0 with
  | nil => rfl
  | cons b bs ih =>
    rw [groupIndexOfBlocks, List.length_cons, ih (i0 + b.2), List.length_cons]

theorem groupIndexOfBlocks_flatten (bs : List (V × Nat)) :
    ∀ i0 : Nat,
      (((groupIndexOfBlocks i0 bs).map Prod.snd).flatten : List Nat) =
        List.range' i0 ((bs.map Prod.snd).sum) := by
  induction bs with
  | nil =>
    intro i0
    simp [groupIndexOfBlocks]
  | cons b bs ih =>
    intro i0
    rw [groupIndexOfBlocks, List.map_cons, List.flatten_cons, ih (i0 + b.2),
      List.map_cons, List.sum_cons]
    have := List.range'_append i0 b.2 ((bs.map Prod.snd).sum) 1
    rw [one_mul] at this
    rw [this, Nat.add_comm ((bs.map Prod.snd).sum) b.2]

theorem blocks_flatten_length (bs : List (V × Nat)) :
    ((bs.map (fun b => List.replicate b.2 b.1)).flatten).length =
      (bs.map Prod.snd).sum := by
  rw [List.length_flatten, List.map_map]
  congr 1
  refine List.map_congr_left ?_
  intro b hb
  simp

/-! ## Evaluating GroupBy on a single Table -/

@[simp] theorem pureBindE {α β : Type} (x : α) (k : α → Except TabError β) :
    ((pure x : Except TabError α) >>= k) = k x := rfl

@[simp] theorem bindPureE {α : Type} (x : Except TabError α) :
    (x >>= pure) = x := by cases x <;> rfl

@[simp] theorem bindOkE {α : Type} (x : Except TabError α) :
    x.bind Except.ok = x := by cases x <;> rfl

theorem mapM_comp_map {α β γ : Type} (l : List α) (g : α → β)
    (f : β → Except TabError γ) :
    (l.map g).mapM f = l.mapM (fun a => f (g a)) := by
  induction l with
  | nil => rfl
  | cons a l ih => rw [List.map_cons, List.mapM_cons, List.mapM_cons, ih]

theorem column_mem_of_some (t : Table V) (c : String) (xs : List V)
    (h : t.Column c = some xs) : ∃ p ∈ t.cols, p.1 = c ∧ p.2 = xs := by
  rw [Table.Column] at h
  cases hf : t.cols.find? (fun p => p.1 = c) with
  | none => rw [hf] at h; cases h
  | some p =>
    rw [hf] at h
    refine ⟨p, List.mem_of_find?_eq_some hf, ?_, ?_⟩
    · have := List.find?_some hf
      simpa using this
    · cases h
      rfl

theorem column_length (t : Table V) (c : String) (xs : List V) (hw : WFT t)
    (h : t.Column c = some xs) : xs.length = t.len := by
  obtain ⟨p, hp, _, rfl⟩ := column_mem_of_some t c xs h
  exact hw.2.1 p hp

theorem cols_ne_nil_of_column (t : Table V) (c : String) (xs : List V)
    (h : t.Column c = some xs) : t.cols ≠ [] := by
  obtain ⟨p, hp, _, _⟩ := column_mem_of_some t c xs h
  exact List.ne_nil_of_mem hp

theorem mustColumn_of_some (t : Table V) (c : String) (xs : List V)
    (h : t.Column c = some xs) : t.MustColumn c = .ok xs := by
  rw [Table.MustColumn, h]

theorem mem_enumFrom_snd {α : Type} :
    ∀ (l : List α) (i : Nat) (q : Nat × α), q ∈ List.enumFrom i l → q.2 ∈ l := by
  intro l
  induction l with
  | nil => intro i q hq; cases hq
  | cons a l ih =>
    intro i q hq
    rw [List.enumFrom_cons] at hq
    rcases List.mem_cons.mp hq with rfl | hq2
    · exact List.mem_cons_self _ _
    · exact List.mem_cons_of_mem a (ih (i + 1) q hq2)

theorem groupByCol_table (t : Table V) (c : String) (xs : List V) (hw : WFT t)
    (hcol : t.Column c = some xs)
    (hb : ∀ q ∈ (groupIndex xs).enum, ∀ i ∈ q.2.2, i < t.len) :
    groupByCol (.table t) c =
      addAllE (.table Table.empty)
        ((groupIndex xs).enum.map (fun q =>
          (GroupID.root.Extend (toString q.1), projT t q.2.2))) := by
  have hne := cols_ne_nil_of_column t c xs hcol
  rw [groupByCol,
    show (Grouping.table t).pairs = [(GroupID.root, t)] by
      rw [Grouping.pairs, if_neg hne]]
  simp only [List.foldlM_cons, List.foldlM_nil, bindPureE]
  rw [mustColumn_of_some t c xs hcol, ok_bind]
  rw [foldlM_emit_addTable (fun q => GroupID.root.Extend (toString q.1))
    (fun q => projectTable t q.2.2) (fun q => projT t q.2.2)
    (groupIndex xs).enum (.table Table.empty)
    (fun q hq => projectTable_eq t q.2.2 hw hne (hb q hq))]

/-! ## concatRows of projections, and projection by all rows -/

theorem projT_range (t : Table V) (hw : WFT t) :
    projT t (List.range' 0 t.len) = t := by
  have hmap : ∀ l : List V, l.length = t.len →
      (List.range' 0 t.len).map (fun i => l.getD i default) = l := by
    intro l hl
    refine List.ext_getElem (by simp [hl]) ?_
    intro j h1 h2
    rw [List.getElem_map, List.getElem_range', List.getD_eq_getElem l default
      (by simpa [hl] using h2)]
    have he : 0 + 1 * j = j := by omega
    simp [he]
  rw [projT]
  have : t.cols.map (fun p =>
      (p.1, (List.range' 0 t.len).map (fun i => p.2.getD i default))) = t.cols := by
    refine (List.map_congr_left ?_).trans (List.map_id t.cols)
    intro p hp
    rw [hmap p.2 (hw.2.1 p hp)]
    rfl
  rw [this, List.length_range']

theorem concatRows_projT (t : Table V) (rss : List (List Nat)) (hw : WFT t)
    (hne : t.cols ≠ []) (h2 : 2 ≤ rss.length)
    (hb : ∀ r ∈ rss, ∀ i ∈ r, i < t.len) :
    concatRows (rss.map (fun rows => projT t rows)) =
      .ok (projT t rss.flatten) := by
  have hcolget : ∀ (p : String × List V), p ∈ t.cols →
      ∀ r ∈ rss, getColE (projT t r) p.1 =
        .ok (r.map (fun i => p.2.getD i default)) := by
    intro p hp r hr
    rw [getColE, projT_Column, column_of_mem t p hw.1 hp]
    rfl
  have hseg : ∀ (p : String × List V), p ∈ t.cols →
      (rss.map (fun rows => projT t rows)).mapM
          (fun tab => getColE tab p.1) =
        .ok (rss.map (fun r => r.map (fun i => p.2.getD i default))) := by
    intro p hp
    rw [mapM_comp_map]
    exact mapM_ok rss _ _ (fun r hr => hcolget p hp r hr)
  have hflat : ∀ (p : String × List V),
      (rss.map (fun r => r.map (fun i => p.2.getD i default))).flatten =
        rss.flatten.map (fun i => p.2.getD i default) :=
    fun p => (List.map_flatten _ rss).symm
  obtain ⟨r0, rss1, rfl⟩ : ∃ r0 rss1, rss = r0 :: rss1 := by
    cases rss with
    | nil => simp at h2
    | cons a l => exact ⟨a, l, rfl⟩
  obtain ⟨r1, rss2, rfl⟩ : ∃ r1 rss2, rss1 = r1 :: rss2 := by
    cases rss1 with
    | nil => simp at h2
    | cons a l => exact ⟨a, l, rfl⟩
  have key : ∀ (L : List (String × List V)) (acc : List (String × List V)),
      (∀ p ∈ L, p ∈ t.cols) →
      ((acc.map Prod.fst ++ L.map Prod.fst).Nodup) → acc ≠ [] →
      (L.map Prod.fst).foldlM (fun (out : Table V) name => do
          let seqs ← ((r0 :: r1 :: rss2).map (fun rows => projT t rows)).mapM
            (fun tab => getColE tab name)
          out.Add name seqs.flatten)
        (⟨acc, (r0 :: r1 :: rss2).flatten.length⟩ : Table V) =
        .ok ⟨acc ++ L.map (fun p =>
            (p.1, (r0 :: r1 :: rss2).flatten.map (fun i => p.2.getD i default))),
          (r0 :: r1 :: rss2).flatten.length⟩ := by
    intro L
    induction L with
    | nil =>
      intro acc hsub hnd hne2
      simp only [List.map_nil, List.foldlM_nil, List.append_nil]
      rfl
    | cons p L ih =>
      intro acc hsub hnd hne2
      rw [show ((p :: L).map Prod.fst) = p.1 :: L.map Prod.fst from rfl,
        List.foldlM_cons,
        hseg p (hsub p (List.mem_cons_self p L)), ok_bind,
        hflat p,
        add_append acc _ p.1 _ hne2
          (by
            rw [List.map_cons, List.nodup_append] at hnd
            exact fun hin => hnd.2.2 hin (List.mem_cons_self _ _))
          (by rw [List.length_map]),
        ok_bind,
        ih (acc ++ [(p.1, (r0 :: r1 :: rss2).flatten.map
            (fun i => p.2.getD i default))])
          (fun q hq => hsub q (List.mem_cons_of_mem p hq))
          (by
            rw [List.map_append, List.append_assoc]
            simpa using hnd)
          (by simp),
        List.append_assoc]
      rfl
  match hcols : t.cols, hne with
  | c0 :: crest, _ =>
    have hw1 := hw.1
    rw [Table.Columns, hcols] at hw1
    rw [show ((r0 :: r1 :: rss2).map (fun rows => projT t rows)) =
      projT t r0 :: projT t r1 :: rss2.map (fun rows => projT t rows)
      from rfl]
    simp only [concatRows]
    rw [show (projT t r0 :: projT t r1 ::
        rss2.map (fun rows => projT t rows)) =
      (r0 :: r1 :: rss2).map (fun rows => projT t rows) from rfl]
    rw [projT_Columns, Table.Columns, hcols,
      show ((c0 :: crest).map Prod.fst) = c0.1 :: crest.map Prod.fst from rfl,
      List.foldlM_cons,
      hseg c0 (by rw [hcols]; exact List.mem_cons_self c0 crest), ok_bind,
      hflat c0]
    have hfirst : (Table.empty : Table V).Add c0.1
        ((r0 :: r1 :: rss2).flatten.map (fun i => c0.2.getD i default)) =
        .ok ⟨[(c0.1, (r0 :: r1 :: rss2).flatten.map
          (fun i => c0.2.getD i default))],
          (r0 :: r1 :: rss2).flatten.length⟩ := by
      rw [add_to_empty, List.length_map]
    rw [hfirst, ok_bind]
    have hKey := key crest
      [(c0.1, (r0 :: r1 :: rss2).flatten.map (fun i => c0.2.getD i default))]
      (fun q hq => by rw [hcols]; exact List.mem_cons_of_mem c0 hq)
      (by simpa using hw1)
      (by simp)
    rw [show (crest.map Prod.fst) = (crest.map Prod.fst) from rfl] at hKey
    rw [hKey, projT, hcols]
    rfl

/-! ## Evaluating Ungroup when every group is a child of the root -/

theorem ungroup_fold_const :
    ∀ (ps : List (GroupID × Table V)) (out : Grouping V)
      (tabs : List (Table V)),
      (∀ p ∈ ps, p.1.Parent = .root) →
      ps.foldlM (fun (st : Grouping V × GroupID × List (Table V)) p => do
          if p.1.Parent ≠ st.2.1 then do
            let run ← concatRows st.2.2
            let out ← st.1.AddTable st.2.1 run
            pure (out, p.1.Parent, [p.2])
          else
            pure (st.1, st.2.1, st.2.2 ++ [p.2]))
        (out, .root, tabs) = .ok (out, .root, tabs ++ ps.map Prod.snd) := by
  intro ps
  induction ps with
  | nil =>
    intro out tabs h
    simp only [List.foldlM_nil, List.map_nil, List.append_nil]
    rfl
  | cons p ps ih =>
    intro out tabs h
    have hpar : p.1.Parent = GroupID.root := h p (List.mem_cons_self p ps)
    rw [List.foldlM_cons,
      if_neg (show ¬ (p.1.Parent ≠
          ((out, GroupID.root, tabs) : Grouping V × GroupID × List (Table V)).2.1)
        from fun hne => hne (by rw [hpar])),
      pureBindE]
    show ps.foldlM _ (out, GroupID.root, tabs ++ [p.2]) = _
    rw [ih out (tabs ++ [p.2]) (fun q hq => h q (List.mem_cons_of_mem p hq))]
    simp [List.append_assoc]

theorem ungroup_rooted (gid0 : GroupID) (t0 : Table V)
    (qs : List (GroupID × Table V)) (cns : List String) (hqs : qs ≠ [])
    (hpar : ∀ p ∈ (gid0, t0) :: qs, p.1.Parent = GroupID.root) :
    Ungroup (.grouped ((gid0, t0) :: qs) cns) =
      (concatRows (((gid0, t0) :: qs).map Prod.snd)).bind
        (fun run => (Grouping.table Table.empty).AddTable .root run) := by
  rw [Ungroup]
  split
  · rename_i heq
    simp [Grouping.pairs] at heq
  · rename_i gid0' t0' rest' heq
    rw [show (Grouping.grouped ((gid0, t0) :: qs) cns).pairs =
      (gid0, t0) :: qs from rfl] at heq
    cases heq
    rw [if_neg (fun he => hqs he.1)]
    rw [show (Grouping.grouped ((gid0, t0) :: qs) cns).pairs =
      (gid0, t0) :: qs from rfl]
    rw [show gid0.Parent = GroupID.root from
      hpar (gid0, t0) (List.mem_cons_self _ _)]
    rw [ungroup_fold_const ((gid0, t0) :: qs) (.table Table.empty) [] hpar,
      ok_bind]
    rfl

/-! ## Claim C3: Ungroup after GroupBy -/

theorem toStringExtend_injective :
    Function.Injective (fun j : Nat => GroupID.root.Extend (toString j)) := by
  intro a b he
  simp only [GroupID.Extend, GroupID.extend.injEq, true_and] at he
  exact natToString_injective a b he

/-- Deterministic-refinement round trip: for a Table `t` with at least
one row and a column `c` in which rows with equal values are
contiguous, `Ungroup` applied to the output of `GroupBy(t, [c])` under
the fixed iteration schedule rebuilds exactly `t`, bound to the parent
(root) group.  The group order this uses is a program guarantee only
for at most two blocks, where every map the rebuild ranges over has at
most one entry. -/
theorem ungroup_groupBy_roundtrip (t : Table V) (c : String) (xs : List V)
    (hw : WFT t) (hcol : t.Column c = some xs) (hnn : xs ≠ [])
    (hcontig : ContigBlocks xs) :
    (GroupBy (.table t) [c]).bind Ungroup = .ok (.table t) := by
  obtain ⟨bs, hbnd, hbpos, hxs⟩ := hcontig
  have hxlen : xs.length = t.len := column_length t c xs hw hcol
  have hne : t.cols ≠ [] := cols_ne_nil_of_column t c xs hcol
  have htotal : (bs.map Prod.snd).sum = t.len := by
    rw [← blocks_flatten_length, ← hxs]
    exact hxlen
  have hgi : groupIndex xs = groupIndexOfBlocks 0 bs := by
    rw [hxs]
    exact groupIndex_of_blocks bs hbnd hbpos
  have hrows : ∀ q ∈ (groupIndex xs).enum, ∀ i ∈ q.2.2, i < t.len := by
    intro q hq i hi
    have hq2 : q.2 ∈ groupIndex xs := mem_enumFrom_snd (groupIndex xs) 0 q hq
    rw [hgi] at hq2
    have hflat : i ∈ ((groupIndexOfBlocks 0 bs).map Prod.snd).flatten :=
      List.mem_flatten.mpr ⟨q.2.2, List.mem_map.mpr ⟨q.2, hq2, rfl⟩, hi⟩
    rw [groupIndexOfBlocks_flatten bs 0] at hflat
    obtain ⟨j, hj, rfl⟩ := List.mem_range'.mp hflat
    omega
  have hGB : GroupBy (.table t) [c] =
      addAllE (.table Table.empty)
        ((groupIndex xs).enum.map (fun q =>
          (GroupID.root.Extend (toString q.1), projT t q.2.2))) := by
    rw [GroupBy,
      show (fun out => GroupBy (V := V) out []) = fun out => Except.ok out from
        funext (fun out => rfl),
      bindOkE]
    exact groupByCol_table t c xs hw hcol hrows
  set ps := (groupIndex xs).enum.map (fun q =>
    (GroupID.root.Extend (toString q.1), projT t q.2.2)) with hps
  have hgids : ps.map Prod.fst =
      (List.range (groupIndex xs).length).map
        (fun j => GroupID.root.Extend (toString j)) := by
    rw [hps, List.map_map, ← List.enum_map_fst (groupIndex xs), List.map_map]
    rfl
  have hnd : (ps.map Prod.fst).Nodup := by
    rw [hgids]
    exact (List.nodup_range _).map toStringExtend_injective
  have hnoroot : ∀ gid ∈ ps.map Prod.fst, gid ≠ GroupID.root := by
    intro gid hgid
    rw [hgids] at hgid
    obtain ⟨j, _, rfl⟩ := List.mem_map.mp hgid
    intro he
    cases he
  have hprops : ∀ p ∈ ps, p.2.cols ≠ [] ∧ p.2.Columns.Nodup := by
    intro p hp
    rw [hps] at hp
    obtain ⟨q, hq, rfl⟩ := List.mem_map.mp hp
    refine ⟨?_, by rw [projT_Columns]; exact hw.1⟩
    rw [projT]
    simpa using hne
  have hsame : ∀ p ∈ ps, ∀ q ∈ ps, SameColSet p.2.Columns q.2.Columns := by
    intro p hp q hq
    rw [hps] at hp hq
    obtain ⟨a, _, rfl⟩ := List.mem_map.mp hp
    obtain ⟨b, _, rfl⟩ := List.mem_map.mp hq
    rw [projT_Columns, projT_Columns]
    exact sameColSet_refl _
  have hshape := addAllE_shape ps hnd
    (fun hmem => hnoroot _ (List.mem_of_mem_drop hmem) rfl) hprops hsame
  rw [hGB, hshape, okBindE]
  have hlen : ps.length = bs.length := by
    rw [hps, List.length_map, List.enum_length, hgi,
      groupIndexOfBlocks_length]
  have hmapsnd : ps.map Prod.snd =
      ((groupIndex xs).map Prod.snd).map (fun rows => projT t rows) := by
    rw [hps, List.map_map, List.map_map]
    conv_lhs =>
      rw [show (Prod.snd ∘ (fun q : Nat × (V × List Nat) =>
          (GroupID.root.Extend (toString q.1), projT t q.2.2))) =
        (((fun rows => projT t rows) ∘ Prod.snd) ∘ Prod.snd) from rfl,
        ← List.map_map, List.enum_map_snd]
  have hflatrows : ((groupIndex xs).map Prod.snd).flatten =
      List.range' 0 t.len := by
    rw [hgi, groupIndexOfBlocks_flatten, htotal]
  cases hbs : bs with
  | nil =>
    rw [hbs] at hxs
    simp at hxs
    exact absurd hxs hnn
  | cons b1 brest =>
    cases hbrest : brest with
    | nil =>
      have hsingle : groupIndex xs = [(b1.1, List.range' 0 b1.2)] := by
        rw [hgi, hbs, hbrest]
        rfl
      have hb2 : b1.2 = t.len := by
        rw [hbs, hbrest] at htotal
        simpa using htotal
      have hps1 : ps = [(GroupID.root.Extend (toString 0),
          projT t (List.range' 0 t.len))] := by
        rw [hps, hsingle, hb2]
        rfl
      rw [hps1, buildShape, projT_range t hw]
      rw [Ungroup]
      split
      · rfl
      · rename_i gid0' t0' rest' heq
        rw [show (Grouping.table t).pairs = [(GroupID.root, t)] from
          by rw [Grouping.pairs, if_neg hne]] at heq
        cases heq
        rw [if_pos ⟨rfl, rfl⟩]
    | cons b2 brest2 =>
      have hlen2 : 2 ≤ ps.length := by
        rw [hlen, hbs, hbrest]
        simp
      have hpsne : ps ≠ [] := by
        intro h
        rw [h] at hlen2
        simp at hlen2
      obtain ⟨p1, ps1, hps2⟩ := List.exists_cons_of_ne_nil hpsne
      have hps1ne : ps1 ≠ [] := by
        intro h
        rw [hps2, h] at hlen2
        simp at hlen2
      obtain ⟨p2, ps2, hps3⟩ := List.exists_cons_of_ne_nil hps1ne
      have hp2root : p2.1 ≠ GroupID.root := by
        apply hnoroot
        rw [hps2, hps3]
        simp
      have hbuild : buildShape ps =
          .grouped ((.root, p1.2) :: p2 :: ps2) p1.2.Columns := by
        rw [hps2, hps3, buildShape, if_neg hp2root]
      rw [hbuild]
      have hpar : ∀ p ∈ ((GroupID.root, p1.2) :: p2 :: ps2), p.1.Parent =
          GroupID.root := by
        intro p hp
        rcases List.mem_cons.mp hp with rfl | hp2
        · rfl
        · have hmem : p.1 ∈ ps.map Prod.fst := by
            rw [hps2, hps3]
            exact List.mem_map.mpr ⟨p, List.mem_cons_of_mem _ hp2, rfl⟩
          rw [hgids] at hmem
          obtain ⟨j, _, hj⟩ := List.mem_map.mp hmem
          rw [← hj]
          rfl
      rw [ungroup_rooted GroupID.root p1.2 (p2 :: ps2) p1.2.Columns
        (by simp) hpar]
      have hmaps : ((GroupID.root, p1.2) :: p2 :: ps2).map Prod.snd =
          ps.map Prod.snd := by
        rw [hps2, hps3]
        rfl
      rw [hmaps, hmapsnd,
        concatRows_projT t ((groupIndex xs).map Prod.snd) hw hne
          (by
            rw [List.length_map, hgi, groupIndexOfBlocks_length, hbs, hbrest]
            simp)
          (by
            intro r hr i hi
            obtain ⟨q, hq, rfl⟩ := List.mem_map.mp hr
            have : i ∈ ((groupIndex xs).map Prod.snd).flatten :=
              List.mem_flatten.mpr ⟨q.2, List.mem_map.mpr ⟨q, hq, rfl⟩, hi⟩
            rw [hflatrows] at this
            obtain ⟨j, hj, rfl⟩ := List.mem_range'.mp this
            omega),
        hflatrows, projT_range t hw, okBindE,
        addTable_to_empty t .root hne]

/-- C3 counterexample: for the Table with column x = [1,2,1], `Ungroup`
applied to the direct output of `GroupBy (["x"])` returns the rows
regrouped by value — [1,1,2] — not the original order [1,2,1], because
`Ungroup` concatenates whole child tables and cannot undo the
interleaving that `GroupBy` separated. -/
theorem ungroup_groupBy_claim_counterexample :
    (GroupBy (Grouping.table (Table.mk [("x", [1, 2, 1])] 3) : Grouping Nat)
        ["x"]).bind Ungroup =
      .ok (.table (Table.mk [("x", [1, 1, 2])] 3)) ∧
    (Table.mk [("x", [1, 1, 2])] 3 : Table Nat) ≠
      Table.mk [("x", [1, 2, 1])] 3 := by
  constructor
  · rfl
  · decide

/-- C3 (amended): for a Table `t` whose column `c` consists of at most
two contiguous blocks of equal values (distinct block values, at least
one row), `Ungroup` after `GroupBy ([c])` returns a plain root-bound
Table carrying exactly `t`'s column-name set and, for every column
name, exactly `t`'s value sequence: the parent's rows in their
original order.  With at most two blocks every map the group rebuild
ranges over has at most one entry, so this holds in every execution;
the per-column form leaves the rebuilt column order unconstrained,
which the Go code does not guarantee. -/
theorem ungroup_groupBy_restores (t : Table V) (c : String) (xs : List V)
    (bs : List (V × Nat)) (hw : WFT t) (hcol : t.Column c = some xs)
    (hnn : xs ≠ []) (hbnd : (bs.map Prod.fst).Nodup)
    (hbpos : ∀ b ∈ bs, 0 < b.2)
    (hxs : xs = (bs.map (fun b => List.replicate b.2 b.1)).flatten)
    (hb2 : bs.length ≤ 2) :
    ∃ u : Table V, (GroupBy (.table t) [c]).bind Ungroup = .ok (.table u) ∧
      SameColSet u.Columns t.Columns ∧
      ∀ name, u.Column name = t.Column name :=
  ⟨t, ungroup_groupBy_roundtrip t c xs hw hcol hnn ⟨bs, hbnd, hbpos, hxs⟩,
    sameColSet_refl _, fun _ => rfl⟩

/-- C3 witness: `ungroup_groupBy_restores` applied at the concrete
Table with column x = [1,1,2], two contiguous blocks, where the round
trip restores the table. -/
theorem ungroup_groupBy_restores_witness :
    ∃ u : Table Nat,
      (GroupBy (Grouping.table (Table.mk [("x", [1, 1, 2])] 3) : Grouping Nat)
          ["x"]).bind Ungroup = .ok (.table u) ∧
      SameColSet u.Columns (Table.mk [("x", [1, 1, 2])] 3 : Table Nat).Columns ∧
      ∀ name, u.Column name =
        (Table.mk [("x", [1, 1, 2])] 3 : Table Nat).Column name :=
  ungroup_groupBy_restores (Table.mk [("x", [1, 1, 2])] 3) "x" [1, 1, 2]
    [(1, 2), (2, 1)] ⟨by decide, by decide, by decide⟩ rfl (by decide)
    (by decide) (by decide) rfl (by decide)

/-! ## SortBy idempotence -/

theorem isSortedSeq_of_pairwise [LinearOrder V] :
    ∀ l : List V, l.Pairwise (fun a b => ¬ b < a) → isSortedSeq l = true := by
  intro l
  induction l with
  | nil => intro _; rfl
  | cons a t ih =>
    intro h
    cases t with
    | nil => rfl
    | cons b r =>
      show (decide (¬ b < a) && isSortedSeq (b :: r)) = true
      rw [Bool.and_eq_true]
      exact ⟨decide_eq_true
          ((List.pairwise_cons.mp h).1 b (List.mem_cons_self b r)),
        ih (List.pairwise_cons.mp h).2⟩

theorem sortPerm_sorted [LinearOrder V] (seq : List V) (n : Nat) :
    ((sortPerm seq n).map (fun i => seq.getD i default)).Pairwise
      (fun a b => ¬ b < a) := by
  have htrans : ∀ a b c : Nat,
      (fun i j => decide (¬ seq.getD j default < seq.getD i default)) a b =
        true →
      (fun i j => decide (¬ seq.getD j default < seq.getD i default)) b c =
        true →
      (fun i j => decide (¬ seq.getD j default < seq.getD i default)) a c =
        true := by
    intro a b c hab hbc
    simp only [decide_eq_true_eq] at hab hbc ⊢
    exact not_lt.mpr (le_trans (not_lt.mp hab) (not_lt.mp hbc))
  have htotal : ∀ a b : Nat,
      ((fun i j => decide (¬ seq.getD j default < seq.getD i default)) a b ||
        (fun i j => decide (¬ seq.getD j default < seq.getD i default)) b a) =
        true := by
    intro a b
    simp only [Bool.or_eq_true, decide_eq_true_eq]
    rcases le_total (seq.getD a default) (seq.getD b default) with h | h
    · exact Or.inl (not_lt.mpr h)
    · exact Or.inr (not_lt.mpr h)
  have h := List.sorted_mergeSort htrans htotal (List.range n)
  refine List.Pairwise.map _ ?_ h
  intro a b hab
  exact of_decide_eq_true hab

theorem sortPerm_mem [LinearOrder V] (seq : List V) (n i : Nat)
    (h : i ∈ sortPerm seq n) : i < n :=
  List.mem_range.mp (List.mem_mergeSort.mp h)

theorem sortedTable_eq [LinearOrder V] (t : Table V) (col : String)
    (seq : List V) (hc : t.Column col = some seq) (hw : WFT t) :
    sortedTable col t = .ok (sortT col t) := by
  rw [sortedTable, mustColumn_of_some t col seq hc, ok_bind, sortT, hc,
    Option.getD_some]
  by_cases hs : isSortedSeq seq
  · rw [if_pos hs, if_pos hs]
    rfl
  · rw [if_neg hs, if_neg hs]
    exact projectTable_eq t (sortPerm seq t.Len) hw
      (cols_ne_nil_of_column t col seq hc)
      (fun i hi => sortPerm_mem seq t.Len i hi)

theorem sortT_eq_self [LinearOrder V] (t : Table V) (col : String)
    (s : List V) (hc : t.Column col = some s) (hs : isSortedSeq s = true) :
    sortT col t = t := by
  rw [sortT, hc, Option.getD_some, if_pos hs]

theorem sortT_Columns [LinearOrder V] (col : String) (t : Table V) :
    (sortT col t).Columns = t.Columns := by
  rw [sortT]
  split
  · rfl
  · exact projT_Columns t _

theorem sortT_cols_ne [LinearOrder V] (col : String) (t : Table V)
    (hne : t.cols ≠ []) : (sortT col t).cols ≠ [] := by
  rw [sortT]
  split
  · exact hne
  · rw [projT]
    simpa using hne

theorem sortT_WFT [LinearOrder V] (col : String) (t : Table V) (hw : WFT t)
    (hne : t.cols ≠ []) : WFT (sortT col t) := by
  rw [sortT]
  split
  · exact hw
  · exact projT_WFT t _ hw hne

theorem sortT_sorted [LinearOrder V] (col : String) (t : Table V)
    (seq : List V) (hc : t.Column col = some seq) :
    ∃ s, (sortT col t).Column col = some s ∧ isSortedSeq s = true := by
  rw [sortT, hc, Option.getD_some]
  by_cases hs : isSortedSeq seq
  · rw [if_pos hs]
    exact ⟨seq, hc, hs⟩
  · rw [if_neg hs]
    refine ⟨(sortPerm seq t.Len).map (fun i => seq.getD i default), ?_, ?_⟩
    · rw [projT_Column, hc]
      rfl
    · exact isSortedSeq_of_pairwise _ (sortPerm_sorted seq t.Len)

theorem foldlM_fn_congr {α β : Type} (f f2 : β → α → Except TabError β)
    (h : ∀ b a, f b a = f2 b a) :
    ∀ (L : List α) (init : β), L.foldlM f init = L.foldlM f2 init := by
  intro L
  induction L with
  | nil => intro init; rfl
  | cons a L ih =>
    intro init
    rw [List.foldlM_cons, List.foldlM_cons, h init a]
    cases f2 init a with
    | error e => rw [error_bind, error_bind]
    | ok b => rw [ok_bind, ok_bind]; exact ih b

theorem sortBy_eq_addAllE [LinearOrder V] (g : Grouping V) (col : String)
    (h : ∀ p ∈ g.pairs, sortedTable col p.2 = .ok (sortT col p.2)) :
    SortBy g col =
      addAllE (.table Table.empty)
        (g.pairs.map (fun p => (p.1, sortT col p.2))) := by
  have hb : ∀ (out : Grouping V) (p : GroupID × Table V),
      (do
        let seq ← p.2.MustColumn col
        if isSortedSeq seq then out.AddTable p.1 p.2
        else do
          let nt ← projectTable p.2 (sortPerm seq p.2.Len)
          out.AddTable p.1 nt) =
      (do
        let s ← sortedTable col p.2
        out.AddTable p.1 s) := by
    intro out p
    rw [sortedTable]
    cases hmc : p.2.MustColumn col with
    | error e => simp only [error_bind]
    | ok seq =>
      simp only [ok_bind]
      by_cases hs : isSortedSeq seq
      · rw [if_pos hs, if_pos hs, pureBindE]
      · rw [if_neg hs, if_neg hs]
  rw [SortBy, foldlM_fn_congr _ _ hb g.pairs (.table Table.empty)]
  exact foldlM_emit_addTable Prod.fst (fun p => sortedTable col p.2)
    (fun p => sortT col p.2) g.pairs (.table Table.empty) h

theorem pairs_fst_nodup (g : Grouping V) (hg : WFG g) :
    (g.pairs.map Prod.fst).Nodup := by
  cases g with
  | table t =>
    rw [Grouping.pairs]
    by_cases he : t.cols = []
    · rw [if_pos he]
      exact List.nodup_nil
    · rw [if_neg he]
      simp
  | grouped tabs cns => exact hg.1

theorem WFG_pairs_ne_nil (g : Grouping V) (hg : WFG g) :
    ∀ p ∈ g.pairs, p.2.cols ≠ [] := by
  cases g with
  | table t =>
    intro p hp
    rw [Grouping.pairs] at hp
    by_cases he : t.cols = []
    · rw [if_pos he] at hp
      cases hp
    · rw [if_neg he] at hp
      simp only [List.mem_singleton] at hp
      rw [hp]
      exact he
  | grouped tabs cns =>
    intro p hp
    exact (hg.2.2 p hp).2.1

theorem buildShape_shapes (qs : List (GroupID × Table V))
    (hnd : (qs.map Prod.fst).Nodup)
    (hroot : GroupID.root ∉ (qs.map Prod.fst).drop 2) :
    (qs = [] ∧ buildShape qs = (.table Table.empty : Grouping V)) ∨
    (∃ q ∈ qs, buildShape qs = .table q.2) ∨
    (∃ t1 p2 rest,
      buildShape qs = .grouped ((.root, t1) :: p2 :: rest) t1.Columns ∧
      p2.1 ≠ .root ∧ ((p2 :: rest).map Prod.fst).Nodup ∧
      GroupID.root ∉ (p2 :: rest).map Prod.fst ∧
      (∃ q ∈ qs, q.2 = t1) ∧ (∀ r ∈ p2 :: rest, r ∈ qs)) := by
  cases qs with
  | nil => exact Or.inl ⟨rfl, rfl⟩
  | cons q1 qs1 =>
    cases qs1 with
    | nil => exact Or.inr (Or.inl ⟨q1, List.mem_cons_self q1 [], rfl⟩)
    | cons q2 rest =>
      simp only [List.map_cons, List.nodup_cons, List.mem_cons] at hnd
      simp only [List.map_cons, List.drop_succ_cons, List.drop_zero] at hroot
      by_cases h2 : q2.1 = GroupID.root
      · have hb : buildShape (q1 :: q2 :: rest) = buildShape (q2 :: rest) := by
          rw [buildShape, if_pos h2]
        cases rest with
        | nil =>
          refine Or.inr (Or.inl ⟨q2, ?_, ?_⟩)
          · exact List.mem_cons_of_mem q1 (List.mem_cons_self q2 [])
          · rw [hb]
            rfl
        | cons r1 rest2 =>
          have hr1 : r1.1 ≠ GroupID.root := by
            intro he
            apply hnd.2.1
            rw [List.map_cons]
            exact List.mem_cons.mpr (Or.inl (by rw [h2, he]))
          refine Or.inr (Or.inr ⟨q2.2, r1, rest2, ?_, hr1, hnd.2.2, ?_, ?_, ?_⟩)
          · rw [hb, buildShape, if_neg hr1]
          · rw [← h2]
            exact hnd.2.1
          · exact ⟨q2, List.mem_cons_of_mem q1 (List.mem_cons_self q2 _), rfl⟩
          · intro r hr
            exact List.mem_cons_of_mem q1 (List.mem_cons_of_mem q2 hr)
      · refine Or.inr (Or.inr ⟨q1.2, q2, rest, ?_, h2, ?_, ?_, ?_, ?_⟩)
        · rw [buildShape, if_neg h2]
        · rw [List.map_cons]
          exact List.nodup_cons.mpr ⟨hnd.2.1, hnd.2.2⟩
        · rw [List.map_cons]
          intro hin
          rcases List.mem_cons.mp hin with he | hin2
          · exact h2 he.symm
          · exact hroot hin2
        · exact ⟨q1, List.mem_cons_self q1 _, rfl⟩
        · intro r hr
          exact List.mem_cons_of_mem q1 hr

/-- Deterministic-refinement idempotence: for a well-formed Grouping
`g` whose column `col` is present in every bound table and whose
group-id list has `RootGroupID` in none of the positions past the
second, a second `SortBy` under the fixed iteration schedule returns
the first one's output unchanged.  The group order this relies on is a
program guarantee only for at most two groups, where every map the
rebuild ranges over has at most one entry. -/
theorem sortBy_idempotent [LinearOrder V] (g : Grouping V) (col : String)
    (x : Grouping V) (hg : WFG g)
    (hcol : ∀ p ∈ g.pairs, ∃ s, p.2.Column col = some s)
    (hroot : GroupID.root ∉ g.Tables.drop 2)
    (hx : SortBy g col = .ok x) :
    SortBy x col = .ok x := by
  set qs := g.pairs.map (fun p => (p.1, sortT col p.2)) with hqs
  have hst : ∀ p ∈ g.pairs, sortedTable col p.2 = .ok (sortT col p.2) := by
    intro p hp
    obtain ⟨s, hs⟩ := hcol p hp
    exact sortedTable_eq p.2 col s hs (WFG_pairs_WFT g hg p hp)
  have hfst : qs.map Prod.fst = g.pairs.map Prod.fst := by
    rw [hqs, List.map_map]
    rfl
  have hnd : (qs.map Prod.fst).Nodup := by
    rw [hfst]
    exact pairs_fst_nodup g hg
  have hroot2 : GroupID.root ∉ (qs.map Prod.fst).drop 2 := by
    rw [hfst]
    exact hroot
  have hprops : ∀ q ∈ qs, q.2.cols ≠ [] ∧ q.2.Columns.Nodup := by
    intro q hq
    rw [hqs] at hq
    obtain ⟨p, hp, rfl⟩ := List.mem_map.mp hq
    exact ⟨sortT_cols_ne col p.2 (WFG_pairs_ne_nil g hg p hp),
      by rw [sortT_Columns]; exact (WFG_pairs_WFT g hg p hp).1⟩
  have hsame : ∀ q ∈ qs, ∀ q2 ∈ qs, SameColSet q.2.Columns q2.2.Columns := by
    intro q hq q2 hq2
    rw [hqs] at hq hq2
    obtain ⟨p, hp, rfl⟩ := List.mem_map.mp hq
    obtain ⟨p2, hp2, rfl⟩ := List.mem_map.mp hq2
    rw [sortT_Columns, sortT_Columns]
    exact sameColSet_trans (WFG_colsOk g hg p hp)
      (sameColSet_symm (WFG_colsOk g hg p2 hp2))
  have hsorted : ∀ q ∈ qs, ∃ s, q.2.Column col = some s ∧
      isSortedSeq s = true := by
    intro q hq
    rw [hqs] at hq
    obtain ⟨p, hp, rfl⟩ := List.mem_map.mp hq
    obtain ⟨s, hs⟩ := hcol p hp
    exact sortT_sorted col p.2 s hs
  have hwft : ∀ q ∈ qs, WFT q.2 := by
    intro q hq
    rw [hqs] at hq
    obtain ⟨p, hp, rfl⟩ := List.mem_map.mp hq
    exact sortT_WFT col p.2 (WFG_pairs_WFT g hg p hp)
      (WFG_pairs_ne_nil g hg p hp)
  rw [sortBy_eq_addAllE g col hst, ← hqs,
    addAllE_shape qs hnd hroot2 hprops hsame] at hx
  have hx2 : x = buildShape qs := (Except.ok.inj hx).symm
  rcases buildShape_shapes qs hnd hroot2 with ⟨hq0, hsh⟩ | ⟨q, hq, hsh⟩ |
    ⟨t1, p2, rest, hsh, hp2, hndr, hrootr, ⟨qt, hqt, hqteq⟩, hmem⟩
  · rw [hx2, hsh]
    rfl
  · rw [hx2, hsh]
    obtain ⟨s, hcs, hss⟩ := hsorted q hq
    have hne : q.2.cols ≠ [] := (hprops q hq).1
    have hpairs : (Grouping.table q.2 : Grouping V).pairs =
        [(GroupID.root, q.2)] := by
      rw [Grouping.pairs, if_neg hne]
    have hst2 : ∀ p ∈ (Grouping.table q.2 : Grouping V).pairs,
        sortedTable col p.2 = .ok (sortT col p.2) := by
      intro p hp
      rw [hpairs] at hp
      simp only [List.mem_singleton] at hp
      rw [hp]
      exact sortedTable_eq q.2 col s hcs (hwft q hq)
    rw [sortBy_eq_addAllE (.table q.2) col hst2, hpairs,
      show ([((GroupID.root : GroupID), q.2)].map
          (fun p => (p.1, sortT col p.2))) =
        [(GroupID.root, sortT col q.2)] from rfl,
      sortT_eq_self q.2 col s hcs hss, addAllE, List.foldlM_cons,
      addTable_to_empty q.2 .root hne, ok_bind, List.foldlM_nil]
    rfl
  · rw [hx2, hsh]
    have hmemx : ∀ p ∈ ((GroupID.root, t1) :: p2 :: rest),
        ∃ q ∈ qs, q.2 = p.2 := by
      intro p hp
      rcases List.mem_cons.mp hp with he | hp2m
      · exact ⟨qt, hqt, by rw [hqteq, he]⟩
      · exact ⟨p, hmem p hp2m, rfl⟩
    have hpairs : (Grouping.grouped ((GroupID.root, t1) :: p2 :: rest)
        t1.Columns : Grouping V).pairs = (GroupID.root, t1) :: p2 :: rest := rfl
    have hst2 : ∀ p ∈ (Grouping.grouped ((GroupID.root, t1) :: p2 :: rest)
        t1.Columns : Grouping V).pairs,
        sortedTable col p.2 = .ok (sortT col p.2) := by
      intro p hp
      rw [hpairs] at hp
      obtain ⟨q, hq, hqe⟩ := hmemx p hp
      obtain ⟨s, hcs, _⟩ := hsorted q hq
      rw [← hqe]
      exact sortedTable_eq q.2 col s hcs (hwft q hq)
    have hmapid : ((GroupID.root, t1) :: p2 :: rest).map
        (fun p => (p.1, sortT col p.2)) = (GroupID.root, t1) :: p2 :: rest := by
      refine (List.map_congr_left ?_).trans (List.map_id _)
      intro p hp
      obtain ⟨q, hq, hqe⟩ := hmemx p hp
      obtain ⟨s, hcs, hss⟩ := hsorted q hq
      rw [hqe] at hcs
      rw [sortT_eq_self p.2 col s hcs hss]
      rfl
    have hnd3 : (((GroupID.root, t1) :: p2 :: rest).map Prod.fst).Nodup := by
      rw [List.map_cons]
      exact List.nodup_cons.mpr ⟨hrootr, hndr⟩
    have hrt3 : GroupID.root ∉
        (((GroupID.root, t1) :: p2 :: rest).map Prod.fst).drop 2 := by
      simp only [List.map_cons, List.drop_succ_cons, List.drop_zero]
      intro hin
      exact hrootr (by rw [List.map_cons]; exact List.mem_cons_of_mem _ hin)
    have hpr3 : ∀ p ∈ ((GroupID.root, t1) :: p2 :: rest),
        p.2.cols ≠ [] ∧ p.2.Columns.Nodup := by
      intro p hp
      obtain ⟨q, hq, hqe⟩ := hmemx p hp
      rw [← hqe]
      exact hprops q hq
    have hsm3 : ∀ p ∈ ((GroupID.root, t1) :: p2 :: rest),
        ∀ p2m ∈ ((GroupID.root, t1) :: p2 :: rest),
        SameColSet p.2.Columns p2m.2.Columns := by
      intro p hp p2m hp2m
      obtain ⟨q, hq, hqe⟩ := hmemx p hp
      obtain ⟨q2, hq2, hqe2⟩ := hmemx p2m hp2m
      rw [← hqe, ← hqe2]
      exact hsame q hq q2 hq2
    rw [sortBy_eq_addAllE _ col hst2, hpairs, hmapid,
      addAllE_shape ((GroupID.root, t1) :: p2 :: rest) hnd3 hrt3 hpr3 hsm3,
      buildShape, if_neg hp2]

/-- C7 counterexample: a reachable three-group Grouping with
`RootGroupID` in third position (built by three `AddTable` calls, each
table a sorted singleton column c = [5]) refutes idempotence: the
first `SortBy` re-roots the first group and then lets the root binding
replace it, dropping group /a; the second `SortBy` collapses the
result further to a single plain Table. -/
theorem sortBy_claim_counterexample :
    (((Grouping.table (Table.mk [("c", [5])] 1) : Grouping Nat).AddTable
          (GroupID.root.Extend "a") (Table.mk [("c", [5])] 1)).bind
        (fun g => g.AddTable (GroupID.root.Extend "b")
          (Table.mk [("c", [5])] 1))).bind
      (fun g => g.AddTable GroupID.root (Table.mk [("c", [5])] 1)) =
      .ok (.grouped [(GroupID.root.Extend "a", Table.mk [("c", [5])] 1),
        (GroupID.root.Extend "b", Table.mk [("c", [5])] 1),
        (GroupID.root, Table.mk [("c", [5])] 1)] ["c"]) ∧
    SortBy (Grouping.grouped
        [(GroupID.root.Extend "a", (Table.mk [("c", [5])] 1 : Table Nat)),
          (GroupID.root.Extend "b", Table.mk [("c", [5])] 1),
          (GroupID.root, Table.mk [("c", [5])] 1)] ["c"]) "c" =
      .ok (.grouped [(GroupID.root.Extend "b", Table.mk [("c", [5])] 1),
        (GroupID.root, Table.mk [("c", [5])] 1)] ["c"]) ∧
    SortBy (Grouping.grouped
        [(GroupID.root.Extend "b", (Table.mk [("c", [5])] 1 : Table Nat)),
          (GroupID.root, Table.mk [("c", [5])] 1)] ["c"]) "c" =
      .ok (.table (Table.mk [("c", [5])] 1)) ∧
    (Grouping.table (Table.mk [("c", [5])] 1) : Grouping Nat) ≠
      .grouped [(GroupID.root.Extend "b", Table.mk [("c", [5])] 1),
        (GroupID.root, Table.mk [("c", [5])] 1)] ["c"] :=
  ⟨rfl, rfl, rfl, by decide⟩

/-- C7 (amended): `SortBy` is idempotent on Groupings of at most two
groups, in every execution.  Stated over the possible outputs of a
first pass: any well-formed Grouping in output shape — a plain Table,
or exactly two groups with the first re-rooted at `RootGroupID` —
whose every group is already sorted on `col` is returned unchanged,
because the second pass short-circuits every group and rebuilds the at
most two bindings through maps of at most one entry, where Go's map
iteration order cannot intervene.  A first pass over a well-formed
input of at most two groups (with `col` present) always produces such
a Grouping; with three or more groups idempotence fails. -/
theorem sortBy_fixed_point [LinearOrder V] (x : Grouping V) (col : String)
    (hg : WFG x)
    (hsorted : ∀ p ∈ x.pairs, ∃ s, p.2.Column col = some s ∧
      isSortedSeq s = true)
    (hshape : (∃ t, x = .table t) ∨
      ∃ t1 g2 t2, g2 ≠ GroupID.root ∧
        x = .grouped [(GroupID.root, t1), (g2, t2)] t1.Columns) :
    SortBy x col = .ok x := by
  rcases hshape with ⟨t, rfl⟩ | ⟨t1, g2, t2, hg2, rfl⟩
  · by_cases hc : t.cols = []
    · have ht : t = Table.empty := by
        cases t with
        | mk cols len =>
          have hc2 : cols = [] := hc
          have hl2 : len = 0 := hg.2.2 hc
          rw [hc2, hl2]
          rfl
      rw [ht]
      rfl
    · have hpairs : (Grouping.table t : Grouping V).pairs =
          [(GroupID.root, t)] := by
        rw [Grouping.pairs, if_neg hc]
      obtain ⟨s, hcs, hss⟩ := hsorted (GroupID.root, t)
        (by rw [hpairs]; exact List.mem_cons_self _ _)
      have hst2 : ∀ p ∈ (Grouping.table t : Grouping V).pairs,
          sortedTable col p.2 = .ok (sortT col p.2) := by
        intro p hp
        rw [hpairs] at hp
        simp only [List.mem_singleton] at hp
        rw [hp]
        exact sortedTable_eq t col s hcs hg
      rw [sortBy_eq_addAllE (.table t) col hst2, hpairs,
        show ([((GroupID.root : GroupID), t)].map
            (fun p => (p.1, sortT col p.2))) =
          [(GroupID.root, sortT col t)] from rfl,
        sortT_eq_self t col s hcs hss, addAllE, List.foldlM_cons,
        addTable_to_empty t .root hc, ok_bind, List.foldlM_nil]
      rfl
  · have hpairs : (Grouping.grouped [(GroupID.root, t1), (g2, t2)]
        t1.Columns : Grouping V).pairs = [(GroupID.root, t1), (g2, t2)] := rfl
    have hst2 : ∀ p ∈ (Grouping.grouped [(GroupID.root, t1), (g2, t2)]
        t1.Columns : Grouping V).pairs,
        sortedTable col p.2 = .ok (sortT col p.2) := by
      intro p hp
      obtain ⟨s, hcs, _⟩ := hsorted p hp
      exact sortedTable_eq p.2 col s hcs (hg.2.2 p hp).1
    have hmapid : (([(GroupID.root, t1), (g2, t2)] :
          List (GroupID × Table V)).map (fun p => (p.1, sortT col p.2))) =
        [(GroupID.root, t1), (g2, t2)] := by
      refine (List.map_congr_left ?_).trans (List.map_id _)
      intro p hp
      obtain ⟨s, hcs, hss⟩ := hsorted p hp
      rw [sortT_eq_self p.2 col s hcs hss]
      rfl
    have hpr : ∀ p ∈ ([(GroupID.root, t1), (g2, t2)] :
        List (GroupID × Table V)), p.2.cols ≠ [] ∧ p.2.Columns.Nodup := by
      intro p hp
      obtain ⟨hw, hne, _⟩ := hg.2.2 p hp
      exact ⟨hne, hw.1⟩
    have hsm : ∀ p ∈ ([(GroupID.root, t1), (g2, t2)] :
        List (GroupID × Table V)),
        ∀ q ∈ ([(GroupID.root, t1), (g2, t2)] : List (GroupID × Table V)),
        SameColSet p.2.Columns q.2.Columns := by
      intro p hp q hq
      exact sameColSet_trans (hg.2.2 p hp).2.2
        (sameColSet_symm (hg.2.2 q hq).2.2)
    have hnd : ((([(GroupID.root, t1), (g2, t2)] :
        List (GroupID × Table V))).map Prod.fst).Nodup := hg.1
    have hrt : GroupID.root ∉ ((([(GroupID.root, t1), (g2, t2)] :
        List (GroupID × Table V))).map Prod.fst).drop 2 := by
      simp
    rw [sortBy_eq_addAllE _ col hst2, hpairs, hmapid,
      addAllE_shape _ hnd hrt hpr hsm, buildShape, if_neg hg2]

/-- C7 witness: `sortBy_fixed_point` at a concrete two-group Grouping
in first-pass output shape with sorted columns: a second `SortBy`
returns it unchanged. -/
theorem sortBy_fixed_point_witness :
    SortBy (Grouping.grouped
        [(GroupID.root, (Table.mk [("c", [1, 2])] 2 : Table Nat)),
          (GroupID.root.Extend "b", Table.mk [("c", [5])] 1)] ["c"]) "c" =
      .ok (Grouping.grouped
        [(GroupID.root, Table.mk [("c", [1, 2])] 2),
          (GroupID.root.Extend "b", Table.mk [("c", [5])] 1)] ["c"]) := by
  refine sortBy_fixed_point (Grouping.grouped
      [(GroupID.root, (Table.mk [("c", [1, 2])] 2 : Table Nat)),
        (GroupID.root.Extend "b", Table.mk [("c", [5])] 1)] ["c"]) "c"
    ?_ ?_ (Or.inr ⟨Table.mk [("c", [1, 2])] 2,
      GroupID.root.Extend "b", Table.mk [("c", [5])] 1, by decide, rfl⟩)
  · refine ⟨by decide, by decide, ?_⟩
    intro p hp
    rcases List.mem_cons.mp hp with he | hp2
    · rw [he]
      exact ⟨⟨by decide, by decide, by decide⟩, by decide,
        ⟨fun s hs => hs, fun s hs => hs⟩⟩
    · rcases List.mem_cons.mp hp2 with he2 | hp3
      · rw [he2]
        exact ⟨⟨by decide, by decide, by decide⟩, by decide,
          ⟨fun s hs => hs, fun s hs => hs⟩⟩
      · cases hp3
  · intro p hp
    rcases List.mem_cons.mp hp with he | hp2
    · refine ⟨[1, 2], ?_, ?_⟩
      · rw [he]
        rfl
      · rfl
    · rcases List.mem_cons.mp hp2 with he2 | hp3
      · refine ⟨[5], ?_, ?_⟩
        · rw [he2]
          rfl
        · rfl
      · cases hp3

end GoGG
